import Mathlib

/-!
Verification of the chain-extraction, chain-collapsing and note-rendering
helpers of the import-linter contracts layer
(src/importlinter/contracts/_common.py), over a shallow embedding of the
code.  The import-graph collaborator (grimp) and the domain Module type are
external to the sources, so they are modelled from the specification of
their interfaces; everything else is translated directly from the source.
-/

namespace ImportLinter

/-- One recorded import in the graph: a directed edge from an importing module
to an imported module, carrying the line numbers of its recorded import
details.  The detail list may be empty: a graph built by hand can contain an
edge with no import-detail records. -/
structure Edge where
  importer : String
  imported : String
  details : List Nat
deriving DecidableEq, Repr

/-- Modelled from the spec: the grimp ImportGraph collaborator, reduced to the
capability set the contracts layer uses - a finite directed graph given by a
list of edges with per-edge import details. -/
structure ImportGraph where
  edges : List Edge
deriving DecidableEq, Repr

/-- Whether the graph has a direct edge from a to b. -/
def ImportGraph.hasEdge (g : ImportGraph) (a b : String) : Bool :=
  g.edges.any fun e => e.importer == a && e.imported == b

/-- Modelled from the spec: the edge-details query of the collaborator, returning
the recorded line numbers of the direct imports of b by a (empty if there is
no direct edge, or the edge carries no details). -/
def ImportGraph.get_import_details (g : ImportGraph) (a b : String) : List Nat :=
  ((g.edges.filter fun e => e.importer == a && e.imported == b).map Edge.details).flatten

/-- Modelled from the spec: the remove-edge operation of the collaborator; removes
every record of the direct edge from a to b (a no-op if the edge is absent). -/
def ImportGraph.remove_import (g : ImportGraph) (a b : String) : ImportGraph :=
  ⟨g.edges.filter fun e => !(e.importer == a && e.imported == b)⟩

/-- The set (duplicate-free list) of direct successors of a module. -/
def ImportGraph.successors (g : ImportGraph) (a : String) : List String :=
  ((g.edges.filter fun e => e.importer == a).map Edge.imported).dedup

/-- Modelled from the spec: the direct-importers query of the collaborator, as the
set (duplicate-free list) of modules with a direct edge into m. -/
def ImportGraph.find_modules_that_directly_import (g : ImportGraph) (m : String) : List String :=
  ((g.edges.filter fun e => e.imported == m).map Edge.importer).dedup

/-- Modelled from the spec: the direct-imports query of the collaborator, as the
set (duplicate-free list) of modules m directly imports. -/
def ImportGraph.find_modules_directly_imported_by (g : ImportGraph) (m : String) : List String :=
  ((g.edges.filter fun e => e.importer == m).map Edge.imported).dedup

/-- Code-point strict comparison of characters, as used by the Python string
ordering. -/
def charLtB (a b : Char) : Bool :=
  a.val.toNat < b.val.toNat

/-- Lexicographic strict order on lists of characters by code point. -/
def lexLtB : List Char → List Char → Bool
  | [], [] => false
  | [], _ :: _ => true
  | _ :: _, [] => false
  | a :: as, b :: bs => if a = b then lexLtB as bs else charLtB a b

/-- The Python string less-or-equal: equality, or lexicographically less by
code point. -/
def strLeB (s t : String) : Bool :=
  s == t || lexLtB s.data t.data

/-- Lexicographic sort of a list of module names (the Python sorted builtin on strings). -/
def sortStr (l : List String) : List String :=
  List.insertionSort (fun a b => strLeB a b = true) l

/-- Ascending sort of a list of line numbers (the Python sorted builtin on ints). -/
def sortNat (l : List Nat) : List Nat :=
  List.insertionSort (· ≤ ·) l

/-- The expression tuple(sorted(set(...))) applied to the line numbers of a
list of import details, as used in find_segments and
segments_to_collapsed_chains. -/
def collapsedLineNumbers (details : List Nat) : List Nat :=
  sortNat details.dedup

/-- Modelled from the spec: the domain Module value type
(importlinter.domain.imports is not among the sources): a dotted-name
identifier with exact-name equality. -/
structure Module where
  name : String
deriving DecidableEq, Repr

/-- Modelled from the spec: Module.is_descendant_of holds exactly when the
name extends the name of the other module by a dot-separated suffix, that is, the
name starts with the other name followed by a dot. -/
def Module.is_descendant_of (m other : Module) : Bool :=
  List.isPrefixOf (other.name ++ ".").data m.name.data

/-- Whether consecutive elements of the list are all direct edges of g. -/
def isChainB (g : ImportGraph) : List String → Bool
  | a :: b :: rest => g.hasEdge a b && isChainB g (b :: rest)
  | _ => true

/-- The list p is a path through g from a to b. -/
def IsChain (g : ImportGraph) (a b : String) (p : List String) : Prop :=
  p.head? = some a ∧ p.getLast? = some b ∧ isChainB g p = true

/-- The consecutive pairs (the edges) of a node list. -/
def pairsOf (p : List String) : List (String × String) :=
  p.zip p.tail

/-- All duplicate-free paths from a to b through g that avoid the visited
list, of length at most the fuel. -/
def chainsFromAux (g : ImportGraph) : Nat → String → String → List String → List (List String)
  | 0, _, _, _ => []
  | fuel+1, a, b, visited =>
    if a = b then [[a]]
    else
      ((g.successors a).filter fun c => !((a :: visited).contains c)).flatMap
        fun c => (chainsFromAux g fuel c b (a :: visited)).map fun p => a :: p

/-- All module names occurring in the graph, without duplicates. -/
def nodesOf (g : ImportGraph) : List String :=
  (g.edges.map Edge.importer ++ g.edges.map Edge.imported).dedup

/-- Select a minimum-length element of a list of candidate chains
(the first one found, for determinism). -/
def pickShortest : List (List String) → Option (List String)
  | [] => none
  | c :: cs => some (cs.foldl (fun best p => if p.length < best.length then p else best) c)

/-- Modelled from the spec: the grimp find_shortest_chain collaborator
capability - a path from a to b that is shortest by edge count, or none when
no path exists.  Tie-breaking between equally short paths is delegated to the
collaborator, so the model fixes one deterministic choice. -/
def ImportGraph.find_shortest_chain (g : ImportGraph) (a b : String) : Option (List String) :=
  pickShortest (chainsFromAux g ((nodesOf g).length + 1) a b [])

/-- Removal of every consecutive edge of a chain from the graph, as performed
by the loop in _pop_shortest_chains. -/
def removeChainEdges (g : ImportGraph) : List String → ImportGraph
  | a :: b :: rest => removeChainEdges (g.remove_import a b) (b :: rest)
  | _ => g

/-- The fueled loop of _pop_shortest_chains: repeatedly query a shortest
chain, record the graph state it was found in together with the chain, remove
the edges of that chain, and stop when no chain remains (or the fuel runs out).
Returns the trace and the final graph. -/
def popAux (a b : String) : Nat → ImportGraph → List (ImportGraph × List String) × ImportGraph
  | 0, g => ([], g)
  | fuel+1, g =>
    match g.find_shortest_chain a b with
    | none => ([], g)
    | some c =>
      let r := popAux a b fuel (removeChainEdges g c)
      ((g, c) :: r.1, r.2)

/-- The sequence of chains yielded by _pop_shortest_chains.  The fuel
(number of edge records plus one) is proved sufficient below: each iteration
removes at least one edge record from the graph. -/
def _pop_shortest_chains (g : ImportGraph) (a b : String) : List (List String) :=
  (popAux a b (g.edges.length + 1) g).1.map Prod.snd

/-- One directed edge of a reported chain: Link from the source, with
line_numbers a tuple of optional line numbers. -/
structure Link where
  importer : String
  imported : String
  line_numbers : List (Option Nat)
deriving DecidableEq, Repr

/-- DetailedChain from the source: a primary annotated chain plus the extra
direct edges sharing its first or last boundary node. -/
structure DetailedChain where
  chain : List Link
  extra_firsts : List Link
  extra_lasts : List Link
deriving DecidableEq, Repr

/-- The body of the inner loop of find_segments: the links of a popped chain,
with line numbers looked up in the reference graph and collapsed by
tuple(sorted(set(...))). -/
def segmentOfChain (reference_graph : ImportGraph) (c : List String) : List Link :=
  (pairsOf c).map fun pr =>
    { importer := pr.1
      imported := pr.2
      line_numbers := (collapsedLineNumbers (reference_graph.get_import_details pr.1 pr.2)).map some }

/-- find_segments from the source: pop shortest chains from the mutable
graph, failing with ValueError on a two-node (direct) chain, and otherwise
turn each chain into a segment of links annotated from the reference graph. -/
def find_segments (graph reference_graph : ImportGraph) (importer imported : Module) :
    Except String (List (List Link)) :=
  let chains := _pop_shortest_chains graph importer.name imported.name
  if chains.any fun c => c.length == 2 then
    Except.error "Direct chain found - these should have been removed."
  else
    Except.ok (chains.map (segmentOfChain reference_graph))

/-- The head expansion of segments_to_collapsed_chains: all modules that
directly import the head boundary node, sorted, filtered to those equal to or
a descendant of the original importer, each turned into a link annotated from
the graph. -/
def headImportsOf (graph : ImportGraph) (importer : Module) (imported_module : String) :
    List Link :=
  let candidate_modules := sortStr (graph.find_modules_that_directly_import imported_module)
  (candidate_modules.filter fun m =>
      Module.mk m == importer || (Module.mk m).is_descendant_of importer).map fun m =>
    { importer := m
      imported := imported_module
      line_numbers := (collapsedLineNumbers (graph.get_import_details m imported_module)).map some }

/-- The tail expansion of segments_to_collapsed_chains: all modules directly
imported by the tail boundary node, sorted, filtered to those equal to or a
descendant of the original imported module, each turned into a link annotated
from the graph. -/
def tailImportsOf (graph : ImportGraph) (imported : Module) (importer_module : String) :
    List Link :=
  let candidate_modules := sortStr (graph.find_modules_directly_imported_by importer_module)
  (candidate_modules.filter fun m =>
      Module.mk m == imported || (Module.mk m).is_descendant_of imported).map fun m =>
    { importer := importer_module
      imported := m
      line_numbers := (collapsedLineNumbers (graph.get_import_details importer_module m)).map some }

/-- The per-segment body of segments_to_collapsed_chains.  Indexing an empty
list in Python raises IndexError, modelled as an error result: segment[0] and
segment[-1] need the segment non-empty, and head_imports[0] and
tail_imports[0] need both expansions non-empty. -/
def collapseSegment (graph : ImportGraph) (importer imported : Module) (segment : List Link) :
    Except String DetailedChain :=
  match segment.head?, segment.getLast? with
  | some fst, some lst =>
    let head_imports := headImportsOf graph importer fst.imported
    let tail_imports := tailImportsOf graph imported lst.importer
    match head_imports.head?, tail_imports.head? with
    | some h0, some t0 =>
      Except.ok
        { chain := [h0] ++ (segment.drop 1).dropLast ++ [t0]
          extra_firsts := head_imports.drop 1
          extra_lasts := tail_imports.drop 1 }
    | _, _ => Except.error "list index out of range"
  | _, _ => Except.error "list index out of range"

/-- segments_to_collapsed_chains from the source: collapse every segment in
order, aborting at the first failure. -/
def segments_to_collapsed_chains (graph : ImportGraph) (segments : List (List Link))
    (importer imported : Module) : Except String (List DetailedChain) :=
  match segments with
  | [] => Except.ok []
  | s :: rest =>
    match collapseSegment graph importer imported s with
    | Except.error e => Except.error e
    | Except.ok dc =>
      match segments_to_collapsed_chains graph rest importer imported with
      | Except.error e => Except.error e
      | Except.ok dcs => Except.ok (dc :: dcs)

/-- The rendering of one optional line number inside format_line_numbers. -/
def renderLineNumber : Option Nat → String
  | none => "l.?"
  | some n => "l." ++ toString n

/-- format_line_numbers from the source. -/
def format_line_numbers (line_numbers : List (Option Nat)) : String :=
  String.intercalate ", " (line_numbers.map renderLineNumber)

/-- ImportNote from the source: one renderable line of the report. -/
structure ImportNote where
  module : String
  msg : String
  line_numbers : List (Option Nat)
deriving DecidableEq, Repr

/-- The string conversion of an ImportNote. -/
def ImportNote.render (n : ImportNote) : String :=
  n.msg ++ " (" ++ format_line_numbers n.line_numbers ++ ")"

/-- _notes_from_direct_import from the source.  The Python optional
arguments default to None; both None and the empty list are falsy, so lists
with an explicit empty default are a faithful model. -/
def _notes_from_direct_import (direct_import : Link)
    (extra_firsts extra_lasts : List Link) : List ImportNote :=
  let import_notes :=
    if extra_firsts.isEmpty then
      [{ module := direct_import.importer
         msg := direct_import.importer ++ " -> " ++ direct_import.imported
         line_numbers := direct_import.line_numbers }]
    else
      ({ module := direct_import.importer
         msg := direct_import.importer
         line_numbers := direct_import.line_numbers } ::
        extra_firsts.dropLast.map fun s =>
          { module := s.importer
            msg := "& " ++ s.importer
            line_numbers := s.line_numbers }) ++
      (match extra_firsts.getLast? with
       | some lastE =>
         [{ module := lastE.importer
            msg := "& " ++ lastE.importer ++ " -> " ++ lastE.imported
            line_numbers := lastE.line_numbers }]
       | none => [])
  import_notes ++
    (if extra_lasts.isEmpty then []
     else
       let importer_name := direct_import.importer
       let indent_string := String.mk (List.replicate (importer_name.length + 4) (Char.ofNat 32))
       extra_lasts.map fun d =>
         { module := importer_name
           msg := indent_string ++ "& " ++ d.imported
           line_numbers := d.line_numbers })

/-- notes_from_chain_data from the source.  Reading main_chain[0] of an empty
chain raises IndexError in Python, modelled as an error result. -/
def notes_from_chain_data (chain_data : DetailedChain) : Except String (List ImportNote) :=
  match chain_data.chain with
  | [] => Except.error "list index out of range"
  | first :: rest =>
    let notes := _notes_from_direct_import first chain_data.extra_firsts []
    let notes := notes ++ rest.dropLast.flatMap fun di => _notes_from_direct_import di [] []
    let notes :=
      if rest.length + 1 > 1 then
        notes ++ _notes_from_direct_import (rest.getLastD first) [] chain_data.extra_lasts
      else notes
    Except.ok notes

/-- Modelled from the spec: the grimp Route collaborator object - a set of
heads all with a direct edge into the first middle node, an ordered middle
sequence, and a set of tails all directly imported by the last middle node. -/
structure Route where
  heads : List String
  middle : List String
  tails : List String
deriving DecidableEq, Repr

/-- get_line_numbers from the source: the line numbers of the details in graph
order, or the one-element unknown tuple when there are no details. -/
def get_line_numbers (importer imported : String) (graph : ImportGraph) : List (Option Nat) :=
  let details := graph.get_import_details importer imported
  if details.isEmpty then [none] else details.map some

/-- The extra_firsts loop of build_detailed_chain_from_route: one link per
extra head, all pointing at route.middle[0] (an IndexError - modelled as an
error - if the middle is empty while an extra head exists). -/
def routeHeadLinks (graph : ImportGraph) (middle : List String) :
    List String → Except String (List Link)
  | [] => Except.ok []
  | head :: rest =>
    match middle.head? with
    | some m0 =>
      match routeHeadLinks graph middle rest with
      | Except.error e => Except.error e
      | Except.ok links =>
        Except.ok
          ({ importer := head
             imported := m0
             line_numbers := get_line_numbers head m0 graph } :: links)
    | none => Except.error "list index out of range"

/-- The extra_lasts loop of build_detailed_chain_from_route: one link per
extra tail, all from route.middle[-1]. -/
def routeTailLinks (graph : ImportGraph) (middle : List String) :
    List String → Except String (List Link)
  | [] => Except.ok []
  | tail :: rest =>
    match middle.getLast? with
    | some mLast =>
      match routeTailLinks graph middle rest with
      | Except.error e => Except.error e
      | Except.ok links =>
        Except.ok
          ({ importer := mLast
             imported := tail
             line_numbers := get_line_numbers mLast tail graph } :: links)
    | none => Except.error "list index out of range"

/-- build_detailed_chain_from_route from the source.  Indexing route.middle
or the sorted heads and tails in Python raises IndexError when the list is
empty; those indexings are modelled exactly where the source performs them. -/
def build_detailed_chain_from_route (route : Route) (graph : ImportGraph) :
    Except String DetailedChain := do
  let ordered_heads := sortStr route.heads
  let extra_firsts ← routeHeadLinks graph route.middle (ordered_heads.drop 1)
  let ordered_tails := sortStr route.tails
  let extra_lasts ← routeTailLinks graph route.middle (ordered_tails.drop 1)
  match ordered_heads.head?, ordered_tails.head? with
  | some h0, some t0 =>
    let chain_as_strings := h0 :: route.middle ++ [t0]
    let chain_as_links := (chain_as_strings.zip chain_as_strings.tail).map fun pr =>
      { importer := pr.1
        imported := pr.2
        line_numbers := get_line_numbers pr.1 pr.2 graph }
    Except.ok { chain := chain_as_links, extra_firsts := extra_firsts, extra_lasts := extra_lasts }
  | _, _ => Except.error "list index out of range"

instance (g : ImportGraph) (a b : String) (p : List String) : Decidable (IsChain g a b p) := by
  unfold IsChain
  infer_instance

/-! ### Basic lemmas about the graph operations -/

theorem hasEdge_iff {g : ImportGraph} {a b : String} :
    g.hasEdge a b = true ↔ ∃ e ∈ g.edges, e.importer = a ∧ e.imported = b := by
  simp [ImportGraph.hasEdge]

theorem mem_successors {g : ImportGraph} {a c : String} :
    c ∈ g.successors a ↔ g.hasEdge a c = true := by
  simp only [ImportGraph.successors, List.mem_dedup, List.mem_map, List.mem_filter,
    hasEdge_iff, beq_iff_eq]
  constructor
  · rintro ⟨e, ⟨he, himp⟩, rfl⟩
    exact ⟨e, he, himp, rfl⟩
  · rintro ⟨e, he, himp, himd⟩
    exact ⟨e, ⟨he, himp⟩, himd⟩

theorem hasEdge_of_subset {g' g : ImportGraph} (hsub : g'.edges ⊆ g.edges) {a b : String}
    (h : g'.hasEdge a b = true) : g.hasEdge a b = true := by
  rcases hasEdge_iff.1 h with ⟨e, he, h1, h2⟩
  exact hasEdge_iff.2 ⟨e, hsub he, h1, h2⟩

theorem remove_import_subset (g : ImportGraph) (a b : String) :
    (g.remove_import a b).edges ⊆ g.edges := by
  intro e he
  exact (List.mem_filter.1 he).1

theorem hasEdge_remove_self (g : ImportGraph) (a b : String) :
    (g.remove_import a b).hasEdge a b = false := by
  by_contra h
  rcases hasEdge_iff.1 (by simpa using h) with ⟨e, he, h1, h2⟩
  have := (List.mem_filter.1 he).2
  simp [h1, h2] at this

theorem length_remove_lt {g : ImportGraph} {a b : String} (h : g.hasEdge a b = true) :
    (g.remove_import a b).edges.length < g.edges.length := by
  rcases hasEdge_iff.1 h with ⟨e, he, h1, h2⟩
  apply List.length_filter_lt_length_iff_exists.2
  exact ⟨e, he, by simp [h1, h2]⟩

theorem removeChainEdges_subset (g : ImportGraph) (c : List String) :
    (removeChainEdges g c).edges ⊆ g.edges := by
  induction c generalizing g with
  | nil => exact fun e he => he
  | cons x xs ih =>
    cases xs with
    | nil => exact fun e he => he
    | cons y ys =>
      intro e he
      exact remove_import_subset g x y (ih (g.remove_import x y) he)

theorem remove_import_length_le (g : ImportGraph) (a b : String) :
    (g.remove_import a b).edges.length ≤ g.edges.length :=
  List.length_filter_le _ _

theorem removeChainEdges_length_le (g : ImportGraph) (c : List String) :
    (removeChainEdges g c).edges.length ≤ g.edges.length := by
  induction c generalizing g with
  | nil => exact le_rfl
  | cons x xs ih =>
    cases xs with
    | nil => exact le_rfl
    | cons y ys =>
      exact le_trans (ih (g.remove_import x y)) (remove_import_length_le g x y)

theorem not_hasEdge_of_subset {g' g : ImportGraph} (hsub : g'.edges ⊆ g.edges) {a b : String}
    (h : g.hasEdge a b = false) : g'.hasEdge a b = false := by
  by_contra hc
  have : g'.hasEdge a b = true := by simpa using hc
  rw [hasEdge_of_subset hsub this] at h
  cases h

theorem hasEdge_removeChainEdges_of_mem_pairs {g : ImportGraph} {c : List String}
    {pr : String × String} (h : pr ∈ pairsOf c) :
    (removeChainEdges g c).hasEdge pr.1 pr.2 = false := by
  induction c generalizing g with
  | nil => simp [pairsOf] at h
  | cons x xs ih =>
    cases xs with
    | nil => simp [pairsOf] at h
    | cons y ys =>
      have hpairs : pairsOf (x :: y :: ys) = (x, y) :: pairsOf (y :: ys) := rfl
      rw [hpairs, List.mem_cons] at h
      show (removeChainEdges (g.remove_import x y) (y :: ys)).hasEdge pr.1 pr.2 = false
      rcases h with h | h
      · subst h
        exact not_hasEdge_of_subset (removeChainEdges_subset _ _) (hasEdge_remove_self g x y)
      · exact ih h

/-! ### Lemmas about isChainB and pairsOf -/

theorem isChainB_nil (g : ImportGraph) : isChainB g [] = true := rfl

theorem isChainB_single (g : ImportGraph) (x : String) : isChainB g [x] = true := rfl

theorem isChainB_cons_cons {g : ImportGraph} {x y : String} {l : List String} :
    isChainB g (x :: y :: l) = (g.hasEdge x y && isChainB g (y :: l)) := rfl

theorem isChainB_tail {g : ImportGraph} {x : String} {l : List String}
    (h : isChainB g (x :: l) = true) : isChainB g l = true := by
  cases l with
  | nil => rfl
  | cons y ys =>
    rw [isChainB_cons_cons, Bool.and_eq_true] at h
    exact h.2

theorem isChainB_cons_of_head {g : ImportGraph} {x y : String} {l : List String}
    (hhead : l.head? = some y) (hedge : g.hasEdge x y = true) (hl : isChainB g l = true) :
    isChainB g (x :: l) = true := by
  cases l with
  | nil => simp at hhead
  | cons z zs =>
    have hz : z = y := by simpa using hhead
    subst hz
    rw [isChainB_cons_cons, Bool.and_eq_true]
    exact ⟨hedge, hl⟩

theorem head_edge_of_isChainB {g : ImportGraph} {x y : String} {l : List String}
    (hhead : l.head? = some y) (h : isChainB g (x :: l) = true) : g.hasEdge x y = true := by
  cases l with
  | nil => simp at hhead
  | cons z zs =>
    have hz : z = y := by simpa using hhead
    subst hz
    rw [isChainB_cons_cons, Bool.and_eq_true] at h
    exact h.1

theorem isChainB_mono {g' g : ImportGraph} (hsub : g'.edges ⊆ g.edges) {p : List String}
    (h : isChainB g' p = true) : isChainB g p = true := by
  induction p with
  | nil => rfl
  | cons x xs ih =>
    cases xs with
    | nil => rfl
    | cons y ys =>
      rw [isChainB_cons_cons, Bool.and_eq_true] at h ⊢
      exact ⟨hasEdge_of_subset hsub h.1, ih h.2⟩

theorem isChainB_append_right {g : ImportGraph} {l1 l2 : List String}
    (h : isChainB g (l1 ++ l2) = true) : isChainB g l2 = true := by
  induction l1 with
  | nil => exact h
  | cons x xs ih => exact ih (isChainB_tail h)

theorem pairsOf_cons_cons (x y : String) (l : List String) :
    pairsOf (x :: y :: l) = (x, y) :: pairsOf (y :: l) := rfl

theorem mem_of_mem_pairsOf {p : List String} {pr : String × String} (h : pr ∈ pairsOf p) :
    pr.1 ∈ p ∧ pr.2 ∈ p := by
  have h' := List.of_mem_zip (show (pr.1, pr.2) ∈ p.zip p.tail from h)
  exact ⟨h'.1, List.mem_of_mem_tail h'.2⟩

theorem hasEdge_of_mem_pairsOf {g : ImportGraph} {p : List String} {pr : String × String}
    (hc : isChainB g p = true) (h : pr ∈ pairsOf p) : g.hasEdge pr.1 pr.2 = true := by
  induction p with
  | nil => simp [pairsOf] at h
  | cons x xs ih =>
    cases xs with
    | nil => simp [pairsOf] at h
    | cons y ys =>
      rw [pairsOf_cons_cons, List.mem_cons] at h
      rw [isChainB_cons_cons, Bool.and_eq_true] at hc
      rcases h with h | h
      · subst h
        exact hc.1
      · exact ih hc.2 h

theorem pairsOf_nodup_of_nodup {p : List String} (h : p.Nodup) : (pairsOf p).Nodup := by
  induction p with
  | nil => exact List.nodup_nil
  | cons x xs ih =>
    cases xs with
    | nil => simp [pairsOf]
    | cons y ys =>
      rw [pairsOf_cons_cons]
      rw [List.nodup_cons] at h
      refine List.nodup_cons.2 ⟨?_, ih h.2⟩
      intro hmem
      exact h.1 (mem_of_mem_pairsOf hmem).1

theorem mem_nodesOf_of_hasEdge {g : ImportGraph} {a b : String} (h : g.hasEdge a b = true) :
    a ∈ nodesOf g ∧ b ∈ nodesOf g := by
  rcases hasEdge_iff.1 h with ⟨e, he, h1, h2⟩
  constructor
  · simp only [nodesOf, List.mem_dedup, List.mem_append, List.mem_map]
    exact Or.inl ⟨e, he, h1⟩
  · simp only [nodesOf, List.mem_dedup, List.mem_append, List.mem_map]
    exact Or.inr ⟨e, he, h2⟩

theorem chain_nodes_mem_nodesOf {g : ImportGraph} {p : List String}
    (hc : isChainB g p = true) (hlen : 2 ≤ p.length) : ∀ x ∈ p, x ∈ nodesOf g := by
  induction p with
  | nil => simp at hlen
  | cons a xs ih =>
    cases xs with
    | nil => simp at hlen
    | cons b ys =>
      rw [isChainB_cons_cons, Bool.and_eq_true] at hc
      intro x hx
      rcases List.mem_cons.1 hx with rfl | hx'
      · exact (mem_nodesOf_of_hasEdge hc.1).1
      · cases ys with
        | nil =>
          rcases List.mem_cons.1 hx' with rfl | hx''
          · exact (mem_nodesOf_of_hasEdge hc.1).2
          · simp at hx''
        | cons z zs =>
          exact ih hc.2 (by simp) x hx'

/-! ### Shortening an arbitrary path to a duplicate-free one -/

/-- The suffix of the list starting at the first occurrence of x (or the empty
list when x does not occur). -/
def dropUntil (x : String) : List String → List String
  | [] => []
  | y :: ys => if y = x then y :: ys else dropUntil x ys

theorem dropUntil_suffix (x : String) (l : List String) : (dropUntil x l).IsSuffix l := by
  induction l with
  | nil => exact List.suffix_refl []
  | cons y ys ih =>
    by_cases h : y = x
    · simp only [dropUntil, if_pos h]
      exact List.suffix_refl _
    · simp only [dropUntil, if_neg h]
      exact ih.trans (List.suffix_cons y ys)

theorem dropUntil_length_le (x : String) (l : List String) :
    (dropUntil x l).length ≤ l.length :=
  (dropUntil_suffix x l).sublist.length_le

theorem dropUntil_head {x : String} {l : List String} (h : x ∈ l) :
    (dropUntil x l).head? = some x := by
  induction l with
  | nil => simp at h
  | cons y ys ih =>
    by_cases hyx : y = x
    · simp [dropUntil, if_pos hyx, hyx]
    · rcases List.mem_cons.1 h with rfl | h'
      · exact absurd rfl hyx
      · simp only [dropUntil, if_neg hyx]
        exact ih h'

theorem dropUntil_ne_nil {x : String} {l : List String} (h : x ∈ l) : dropUntil x l ≠ [] := by
  intro hnil
  rw [← List.head?_eq_none_iff] at hnil
  rw [dropUntil_head h] at hnil
  cases hnil

/-- Remove cycles from a node list, keeping its first and last elements:
whenever the head reoccurs later, skip forward to its last possible
reoccurrence by continuing from the first occurrence in the tail. -/
def simplify : List String → List String
  | [] => []
  | x :: xs => if x ∈ xs then simplify (dropUntil x xs) else x :: simplify xs
termination_by l => l.length
decreasing_by
  all_goals simp only [List.length_cons]
  · exact Nat.lt_succ_of_le (dropUntil_length_le _ _)
  · exact Nat.lt_succ_of_le le_rfl

theorem simplify_subset (l : List String) : simplify l ⊆ l := by
  induction l using simplify.induct with
  | case1 => simp [simplify]
  | case2 x xs h ih =>
    rw [simplify, if_pos h]
    exact fun a ha => List.mem_cons_of_mem x ((dropUntil_suffix x xs).subset (ih ha))
  | case3 x xs h ih =>
    rw [simplify, if_neg h]
    intro a ha
    rcases List.mem_cons.1 ha with rfl | ha'
    · exact List.mem_cons_self a xs
    · exact List.mem_cons_of_mem x (ih ha')

theorem simplify_length_le (l : List String) : (simplify l).length ≤ l.length := by
  induction l using simplify.induct with
  | case1 => simp [simplify]
  | case2 x xs h ih =>
    rw [simplify, if_pos h]
    exact le_trans (le_trans ih (dropUntil_length_le x xs)) (Nat.le_succ _)
  | case3 x xs h ih =>
    rw [simplify, if_neg h]
    simpa using ih

theorem simplify_nodup (l : List String) : (simplify l).Nodup := by
  induction l using simplify.induct with
  | case1 => simp [simplify]
  | case2 x xs h ih =>
    rw [simplify, if_pos h]
    exact ih
  | case3 x xs h ih =>
    rw [simplify, if_neg h]
    exact List.nodup_cons.2 ⟨fun hmem => h (simplify_subset xs hmem), ih⟩

theorem simplify_head {l : List String} {a : String} (h : l.head? = some a) :
    (simplify l).head? = some a := by
  induction l using simplify.induct with
  | case1 => simp at h
  | case2 x xs hx ih =>
    rw [simplify, if_pos hx]
    have hax : a = x := by simpa using h.symm
    subst hax
    exact ih (dropUntil_head hx)
  | case3 x xs hx ih =>
    rw [simplify, if_neg hx]
    simpa using h

theorem simplify_ne_nil {l : List String} (h : l ≠ []) : simplify l ≠ [] := by
  cases l with
  | nil => exact absurd rfl h
  | cons x xs =>
    intro hnil
    have := simplify_head (l := x :: xs) (a := x) rfl
    rw [hnil] at this
    cases this

theorem suffix_getLast? {l1 l2 : List String} (h : l2.IsSuffix l1) (hne : l2 ≠ []) :
    l2.getLast? = l1.getLast? := by
  rcases h with ⟨pre, rfl⟩
  exact (List.getLast?_append_of_ne_nil pre hne).symm

theorem simplify_getLast (l : List String) : (simplify l).getLast? = l.getLast? := by
  induction l using simplify.induct with
  | case1 => simp [simplify]
  | case2 x xs hx ih =>
    rw [simplify, if_pos hx]
    rw [ih, suffix_getLast? (dropUntil_suffix x xs) (dropUntil_ne_nil hx)]
    cases xs with
    | nil => simp at hx
    | cons z zs => rw [List.getLast?_cons_cons]
  | case3 x xs hx ih =>
    rw [simplify, if_neg hx]
    cases xs with
    | nil => simp [simplify]
    | cons z zs =>
      have hne : simplify (z :: zs) ≠ [] := simplify_ne_nil (by simp)
      cases hs : simplify (z :: zs) with
      | nil => exact absurd hs hne
      | cons w ws =>
        rw [List.getLast?_cons_cons, ← hs, ih]
        rw [List.getLast?_cons_cons]

theorem isChainB_of_suffix {g : ImportGraph} {l1 l2 : List String} (h : l2.IsSuffix l1)
    (hc : isChainB g l1 = true) : isChainB g l2 = true := by
  rcases h with ⟨pre, rfl⟩
  exact isChainB_append_right hc

theorem simplify_isChainB {g : ImportGraph} {l : List String} (hc : isChainB g l = true) :
    isChainB g (simplify l) = true := by
  induction l using simplify.induct with
  | case1 =>
    rw [simplify]
    exact hc
  | case2 x xs hx ih =>
    rw [simplify, if_pos hx]
    exact ih (isChainB_of_suffix (dropUntil_suffix x xs) (isChainB_tail hc))
  | case3 x xs hx ih =>
    rw [simplify, if_neg hx]
    cases xs with
    | nil => simp [simplify, isChainB_single]
    | cons z zs =>
      have hzs : isChainB g (simplify (z :: zs)) = true := ih (isChainB_tail hc)
      refine isChainB_cons_of_head (simplify_head (l := z :: zs) rfl) ?_ hzs
      exact head_edge_of_isChainB (l := z :: zs) (y := z) rfl hc

/-! ### Soundness and completeness of the path enumeration -/

theorem chainsFromAux_sound {g : ImportGraph} :
    ∀ {fuel : Nat} {a b : String} {visited : List String} {p : List String},
      a ∉ visited → p ∈ chainsFromAux g fuel a b visited →
      p.head? = some a ∧ p.getLast? = some b ∧ isChainB g p = true ∧ p.Nodup ∧
        ∀ x ∈ p, x ∉ visited := by
  intro fuel
  induction fuel with
  | zero => intro a b visited p _ hp; simp [chainsFromAux] at hp
  | succ f ih =>
    intro a b visited p ha hp
    rw [chainsFromAux] at hp
    by_cases hab : a = b
    · rw [if_pos hab] at hp
      have hpa : p = [a] := by simpa using hp
      subst hpa
      refine ⟨rfl, by simp [hab], rfl, by simp, ?_⟩
      intro x hx
      have hxa : x = a := List.mem_singleton.1 hx
      subst hxa
      exact ha
    · rw [if_neg hab] at hp
      rcases List.mem_flatMap.1 hp with ⟨c, hc, hpmem⟩
      rcases List.mem_map.1 hpmem with ⟨p', hp', rfl⟩
      rcases List.mem_filter.1 hc with ⟨hcsucc, hcnot⟩
      have hcvis : c ∉ a :: visited := by simpa using hcnot
      obtain ⟨hhead, hlast, hchain, hnodup, hdisj⟩ := ih hcvis hp'
      have hedge : g.hasEdge a c = true := mem_successors.1 hcsucc
      have hp'ne : p' ≠ [] := by
        intro hnil
        rw [hnil] at hhead
        cases hhead
      refine ⟨rfl, ?_, ?_, ?_, ?_⟩
      · cases p' with
        | nil => exact absurd rfl hp'ne
        | cons w ws => rw [List.getLast?_cons_cons]; exact hlast
      · exact isChainB_cons_of_head hhead hedge hchain
      · refine List.nodup_cons.2 ⟨?_, hnodup⟩
        intro hmem
        exact (hdisj a hmem) (List.mem_cons_self a visited)
      · intro x hx
        rcases List.mem_cons.1 hx with rfl | hx'
        · exact ha
        · exact fun hmem => (hdisj x hx') (List.mem_cons_of_mem a hmem)

theorem chainsFromAux_complete {g : ImportGraph} :
    ∀ {p : List String} {fuel : Nat} {a b : String} {visited : List String},
      p.head? = some a → p.getLast? = some b → isChainB g p = true → p.Nodup →
      (∀ x ∈ p, x ∉ visited) → p.length ≤ fuel →
      p ∈ chainsFromAux g fuel a b visited := by
  intro p
  induction p with
  | nil => intro fuel a b visited h; cases h
  | cons a' p' ih =>
    intro fuel a b visited hhead hlast hchain hnodup hdisj hlen
    have haa : a = a' := by
      have : a' = a := by simpa using hhead
      exact this.symm
    subst haa
    cases fuel with
    | zero => simp at hlen
    | succ f =>
      rw [chainsFromAux]
      by_cases hab : a = b
      · rw [if_pos hab]
        have hpnil : p' = [] := by
          cases p' with
          | nil => rfl
          | cons w ws =>
            exfalso
            rw [List.getLast?_cons_cons] at hlast
            have hbmem : b ∈ w :: ws := List.mem_of_mem_getLast? hlast
            rw [← hab] at hbmem
            exact (List.nodup_cons.1 hnodup).1 hbmem
        subst hpnil
        simp
      · rw [if_neg hab]
        cases p' with
        | nil =>
          exfalso
          have : some a = some b := hlast
          rw [Option.some_inj] at this
          exact hab this
        | cons c rest =>
          have hcp : c ∈ a :: c :: rest := by simp
          have hedge : g.hasEdge a c = true :=
            head_edge_of_isChainB (l := c :: rest) (y := c) rfl hchain
          apply List.mem_flatMap.2
          refine ⟨c, ?_, ?_⟩
          · apply List.mem_filter.2
            refine ⟨mem_successors.2 hedge, ?_⟩
            have hcnot : c ∉ a :: visited := by
              intro hmem
              rcases List.mem_cons.1 hmem with rfl | hmem'
              · exact (List.nodup_cons.1 hnodup).1 (by simp)
              · exact hdisj c hcp hmem'
            simpa using hcnot
          · apply List.mem_map.2
            refine ⟨c :: rest, ?_, rfl⟩
            apply ih rfl
            · rw [List.getLast?_cons_cons] at hlast
              exact hlast
            · exact isChainB_tail hchain
            · exact (List.nodup_cons.1 hnodup).2
            · intro x hx
              intro hmem
              rcases List.mem_cons.1 hmem with rfl | hmem'
              · exact (List.nodup_cons.1 hnodup).1 hx
              · exact hdisj x (List.mem_cons_of_mem _ hx) hmem'
            · simpa using Nat.le_of_succ_le_succ hlen

/-! ### The shortest-chain query -/

theorem foldl_pick_spec (cs : List (List String)) (c : List String) :
    (cs.foldl (fun best p => if p.length < best.length then p else best) c) ∈ c :: cs ∧
    (cs.foldl (fun best p => if p.length < best.length then p else best) c).length ≤ c.length ∧
    ∀ p ∈ cs,
      (cs.foldl (fun best p => if p.length < best.length then p else best) c).length ≤
        p.length := by
  induction cs generalizing c with
  | nil => exact ⟨by simp, le_rfl, by simp⟩
  | cons q qs ih =>
    by_cases hq : q.length < c.length
    · rw [List.foldl_cons, if_pos hq]
      obtain ⟨hmem, hle, hall⟩ := ih q
      refine ⟨List.mem_cons_of_mem c hmem, le_trans hle (le_of_lt hq), ?_⟩
      intro p hp
      rcases List.mem_cons.1 hp with rfl | hp'
      · exact hle
      · exact hall p hp'
    · rw [List.foldl_cons, if_neg hq]
      push_neg at hq
      obtain ⟨hmem, hle, hall⟩ := ih c
      refine ⟨?_, hle, ?_⟩
      · rcases List.mem_cons.1 hmem with h | hm
        · rw [h]
          exact List.mem_cons_self c (q :: qs)
        · exact List.mem_cons_of_mem c (List.mem_cons_of_mem q hm)
      · intro p hp
        rcases List.mem_cons.1 hp with rfl | hp'
        · exact le_trans hle hq
        · exact hall p hp'

theorem pickShortest_spec {cs : List (List String)} {c : List String}
    (h : pickShortest cs = some c) : c ∈ cs ∧ ∀ p ∈ cs, c.length ≤ p.length := by
  cases cs with
  | nil => cases h
  | cons q qs =>
    rw [pickShortest, Option.some_inj] at h
    obtain ⟨hmem, hle, hall⟩ := foldl_pick_spec qs q
    subst h
    refine ⟨hmem, ?_⟩
    intro p hp
    rcases List.mem_cons.1 hp with rfl | hp'
    · exact hle
    · exact hall p hp'

theorem pickShortest_eq_none {cs : List (List String)} (h : pickShortest cs = none) :
    cs = [] := by
  cases cs with
  | nil => rfl
  | cons q qs => cases h

theorem length_le_of_nodup_subset {p l : List String} (hp : p.Nodup) (hsub : p ⊆ l) :
    p.length ≤ l.length := by
  calc p.length = p.toFinset.card := (List.toFinset_card_of_nodup hp).symm
    _ ≤ l.toFinset.card := by
        apply Finset.card_le_card
        intro x hx
        exact List.mem_toFinset.2 (hsub (List.mem_toFinset.1 hx))
    _ ≤ l.length := List.toFinset_card_le l

theorem IsChain.two_le_length {g : ImportGraph} {a b : String} {p : List String}
    (hab : a ≠ b) (h : IsChain g a b p) : 2 ≤ p.length := by
  obtain ⟨hhead, hlast, _⟩ := h
  cases p with
  | nil => cases hhead
  | cons x xs =>
    cases xs with
    | nil =>
      exfalso
      have hxa : x = a := by simpa using hhead
      have hxb : x = b := by simpa using hlast
      exact hab (hxa ▸ hxb ▸ rfl)
    | cons y ys => simp

theorem find_shortest_chain_sound {g : ImportGraph} {a b : String} {c : List String}
    (h : g.find_shortest_chain a b = some c) :
    c.head? = some a ∧ c.getLast? = some b ∧ isChainB g c = true ∧ c.Nodup := by
  rw [ImportGraph.find_shortest_chain] at h
  have hmem := (pickShortest_spec h).1
  obtain ⟨h1, h2, h3, h4, _⟩ := chainsFromAux_sound (List.not_mem_nil a) hmem
  exact ⟨h1, h2, h3, h4⟩

theorem mem_chainsFromAux_top {g : ImportGraph} {a b : String} {p : List String}
    (hab : a ≠ b) (h : IsChain g a b p) :
    simplify p ∈ chainsFromAux g ((nodesOf g).length + 1) a b [] := by
  obtain ⟨hhead, hlast, hchain⟩ := h
  have hshead : (simplify p).head? = some a := simplify_head hhead
  have hslast : (simplify p).getLast? = some b := (simplify_getLast p).trans hlast
  have hschain : isChainB g (simplify p) = true := simplify_isChainB hchain
  have hsnodup : (simplify p).Nodup := simplify_nodup p
  have hslen2 : 2 ≤ (simplify p).length :=
    IsChain.two_le_length hab ⟨hshead, hslast, hschain⟩
  have hsub : simplify p ⊆ nodesOf g := by
    intro x hx
    exact chain_nodes_mem_nodesOf hschain hslen2 x hx
  have hlen : (simplify p).length ≤ (nodesOf g).length + 1 :=
    le_trans (length_le_of_nodup_subset hsnodup hsub) (Nat.le_succ _)
  exact chainsFromAux_complete hshead hslast hschain hsnodup (by simp) hlen

theorem find_shortest_chain_min {g : ImportGraph} {a b : String} {c : List String}
    (hab : a ≠ b) (h : g.find_shortest_chain a b = some c) :
    ∀ p, IsChain g a b p → c.length ≤ p.length := by
  intro p hp
  have hmem := mem_chainsFromAux_top hab hp
  rw [ImportGraph.find_shortest_chain] at h
  have hmin := (pickShortest_spec h).2
  exact le_trans (hmin _ hmem) (simplify_length_le p)

theorem find_shortest_chain_isChain {g : ImportGraph} {a b : String} {c : List String}
    (h : g.find_shortest_chain a b = some c) : IsChain g a b c := by
  obtain ⟨h1, h2, h3, _⟩ := find_shortest_chain_sound h
  exact ⟨h1, h2, h3⟩

theorem find_shortest_chain_none {g : ImportGraph} {a b : String} (hab : a ≠ b)
    (h : g.find_shortest_chain a b = none) : ∀ p, ¬ IsChain g a b p := by
  intro p hp
  have hmem := mem_chainsFromAux_top hab hp
  rw [ImportGraph.find_shortest_chain] at h
  rw [pickShortest_eq_none h] at hmem
  cases hmem

/-- A chain is a shortest path from a to b in g at the moment it is
discovered: it is a path, and no path is strictly shorter. -/
def IsShortestChain (g : ImportGraph) (a b : String) (c : List String) : Prop :=
  IsChain g a b c ∧ ∀ p, IsChain g a b p → c.length ≤ p.length

theorem find_shortest_chain_shortest {g : ImportGraph} {a b : String} {c : List String}
    (hab : a ≠ b) (h : g.find_shortest_chain a b = some c) : IsShortestChain g a b c :=
  ⟨find_shortest_chain_isChain h, find_shortest_chain_min hab h⟩

/-! ### The extract-and-remove loop -/

theorem popAux_entry_fsc {a b : String} :
    ∀ {fuel : Nat} {g : ImportGraph} {pr : ImportGraph × List String},
      pr ∈ (popAux a b fuel g).1 → pr.1.find_shortest_chain a b = some pr.2 := by
  intro fuel
  induction fuel with
  | zero => intro g pr h; simp [popAux] at h
  | succ f ih =>
    intro g pr h
    rw [popAux] at h
    cases hfsc : g.find_shortest_chain a b with
    | none => rw [hfsc] at h; simp at h
    | some c =>
      rw [hfsc] at h
      simp only [List.mem_cons] at h
      rcases h with rfl | h'
      · exact hfsc
      · exact ih h'

theorem popAux_subgraph {a b : String} :
    ∀ {fuel : Nat} {g : ImportGraph} {pr : ImportGraph × List String},
      pr ∈ (popAux a b fuel g).1 → pr.1.edges ⊆ g.edges := by
  intro fuel
  induction fuel with
  | zero => intro g pr h; simp [popAux] at h
  | succ f ih =>
    intro g pr h
    rw [popAux] at h
    cases hfsc : g.find_shortest_chain a b with
    | none => rw [hfsc] at h; simp at h
    | some c =>
      rw [hfsc] at h
      simp only [List.mem_cons] at h
      rcases h with rfl | h'
      · exact fun e he => he
      · exact fun e he => removeChainEdges_subset g c (ih h' he)

theorem popAux_head_state {a b : String} {fuel : Nat} {g : ImportGraph}
    {pr : ImportGraph × List String} (h : (popAux a b fuel g).1.head? = some pr) :
    pr.1 = g := by
  cases fuel with
  | zero => cases h
  | succ f =>
    rw [popAux] at h
    cases hfsc : g.find_shortest_chain a b with
    | none => rw [hfsc] at h; cases h
    | some c =>
      rw [hfsc] at h
      have : pr = (g, c) := by simpa using h.symm
      rw [this]

theorem popAux_consecutive {a b : String} :
    ∀ {fuel : Nat} {g : ImportGraph} (i : Nat) {pr pr' : ImportGraph × List String},
      (popAux a b fuel g).1.get? i = some pr → (popAux a b fuel g).1.get? (i + 1) = some pr' →
      pr'.1 = removeChainEdges pr.1 pr.2 := by
  intro fuel
  induction fuel with
  | zero => intro g i pr pr' h _; simp [popAux] at h
  | succ f ih =>
    intro g i pr pr' hi hi1
    rw [popAux] at hi hi1
    cases hfsc : g.find_shortest_chain a b with
    | none => rw [hfsc] at hi; simp at hi
    | some c =>
      rw [hfsc] at hi hi1
      cases i with
      | zero =>
        rw [List.get?_cons_zero, Option.some_inj] at hi
        rw [List.get?_cons_succ] at hi1
        subst hi
        have hhead : (popAux a b f (removeChainEdges g c)).1.head? = some pr' := by
          rw [← List.get?_zero]
          exact hi1
        exact popAux_head_state hhead
      | succ j =>
        rw [List.get?_cons_succ] at hi hi1
        exact ih j hi hi1

theorem popAux_later_in_removed {a b : String} :
    ∀ {fuel : Nat} {g : ImportGraph} (i j : Nat) {pr pr' : ImportGraph × List String},
      i < j → (popAux a b fuel g).1.get? i = some pr →
      (popAux a b fuel g).1.get? j = some pr' →
      pr'.1.edges ⊆ (removeChainEdges pr.1 pr.2).edges := by
  intro fuel
  induction fuel with
  | zero => intro g i j pr pr' _ h _; simp [popAux] at h
  | succ f ih =>
    intro g i j pr pr' hij hi hj
    rw [popAux] at hi hj
    cases hfsc : g.find_shortest_chain a b with
    | none => rw [hfsc] at hi; simp at hi
    | some c =>
      rw [hfsc] at hi hj
      cases j with
      | zero => cases hij
      | succ j' =>
        rw [List.get?_cons_succ] at hj
        cases i with
        | zero =>
          rw [List.get?_cons_zero, Option.some_inj] at hi
          subst hi
          have hmem : pr' ∈ (popAux a b f (removeChainEdges g c)).1 :=
            List.get?_mem hj
          exact popAux_subgraph hmem
        | succ i' =>
          rw [List.get?_cons_succ] at hi
          exact ih i' j' (Nat.lt_of_succ_lt_succ hij) hi hj

theorem removeChainEdges_length_lt {g : ImportGraph} {c : List String}
    (hc : isChainB g c = true) (hlen : 2 ≤ c.length) :
    (removeChainEdges g c).edges.length < g.edges.length := by
  cases c with
  | nil => simp at hlen
  | cons x xs =>
    cases xs with
    | nil => simp at hlen
    | cons y ys =>
      rw [isChainB_cons_cons, Bool.and_eq_true] at hc
      show (removeChainEdges (g.remove_import x y) (y :: ys)).edges.length < g.edges.length
      exact lt_of_le_of_lt (removeChainEdges_length_le _ _) (length_remove_lt hc.1)

theorem popAux_final_none {a b : String} (hab : a ≠ b) :
    ∀ {fuel : Nat} {g : ImportGraph}, g.edges.length < fuel →
      (popAux a b fuel g).2.find_shortest_chain a b = none := by
  intro fuel
  induction fuel with
  | zero => intro g h; cases h
  | succ f ih =>
    intro g h
    rw [popAux]
    cases hfsc : g.find_shortest_chain a b with
    | none => exact hfsc
    | some c =>
      show (popAux a b f (removeChainEdges g c)).2.find_shortest_chain a b = none
      apply ih
      have hchain : IsChain g a b c := find_shortest_chain_isChain hfsc
      have h2 : 2 ≤ c.length := IsChain.two_le_length hab hchain
      have hlt : (removeChainEdges g c).edges.length < g.edges.length :=
        removeChainEdges_length_lt hchain.2.2 h2
      exact lt_of_lt_of_le hlt (Nat.le_of_succ_le_succ h)

/-! ### Claims C1 and C2 -/

/-- C2: for every finite graph and distinct importer/imported pair, along the
trace of the extract-and-remove loop of _pop_shortest_chains: the loop starts
from the given graph; each yielded chain is a shortest path (by edge count)
in the graph at the moment it is discovered; all edges of that chain are
removed before the next shortest-path query runs (each successive graph state
is exactly the previous one with the edges of the discovered chain removed); the
yielded sequence is finite and ends exactly when no importer-to-imported path
remains in the graph. -/
theorem pop_shortest_chains_spec (g : ImportGraph) (a b : String) (hab : a ≠ b) :
    (∀ pr, (popAux a b (g.edges.length + 1) g).1.head? = some pr → pr.1 = g) ∧
    (∀ pr ∈ (popAux a b (g.edges.length + 1) g).1, IsShortestChain pr.1 a b pr.2) ∧
    (∀ (i : Nat) (pr pr' : ImportGraph × List String),
        (popAux a b (g.edges.length + 1) g).1.get? i = some pr →
        (popAux a b (g.edges.length + 1) g).1.get? (i + 1) = some pr' →
        pr'.1 = removeChainEdges pr.1 pr.2) ∧
    (popAux a b (g.edges.length + 1) g).2.find_shortest_chain a b = none ∧
    (∀ p, ¬ IsChain (popAux a b (g.edges.length + 1) g).2 a b p) ∧
    _pop_shortest_chains g a b = (popAux a b (g.edges.length + 1) g).1.map Prod.snd := by
  have hfinal : (popAux a b (g.edges.length + 1) g).2.find_shortest_chain a b = none :=
    popAux_final_none hab (Nat.lt_succ_self _)
  refine ⟨?_, ?_, ?_, hfinal, ?_, rfl⟩
  · intro pr h
    exact popAux_head_state h
  · intro pr hpr
    exact find_shortest_chain_shortest hab (popAux_entry_fsc hpr)
  · intro i pr pr' hi hi1
    exact popAux_consecutive i hi hi1
  · exact find_shortest_chain_none hab hfinal

/-- A two-edge graph used to instantiate the general theorems about the
extract-and-remove loop on a concrete input. -/
def gTwoStep : ImportGraph :=
  ⟨[⟨"a", "m", [1]⟩, ⟨"m", "b", [2]⟩]⟩

/-- C2 (witness): the loop specification holds on a concrete two-edge graph
with distinct endpoints. -/
theorem pop_shortest_chains_spec_witness :
    (∀ pr, (popAux "a" "b" (gTwoStep.edges.length + 1) gTwoStep).1.head? = some pr →
      pr.1 = gTwoStep) ∧
    (∀ pr ∈ (popAux "a" "b" (gTwoStep.edges.length + 1) gTwoStep).1,
      IsShortestChain pr.1 "a" "b" pr.2) ∧
    (∀ (i : Nat) (pr pr' : ImportGraph × List String),
        (popAux "a" "b" (gTwoStep.edges.length + 1) gTwoStep).1.get? i = some pr →
        (popAux "a" "b" (gTwoStep.edges.length + 1) gTwoStep).1.get? (i + 1) = some pr' →
        pr'.1 = removeChainEdges pr.1 pr.2) ∧
    (popAux "a" "b" (gTwoStep.edges.length + 1) gTwoStep).2.find_shortest_chain "a" "b" = none ∧
    (∀ p, ¬ IsChain (popAux "a" "b" (gTwoStep.edges.length + 1) gTwoStep).2 "a" "b" p) ∧
    _pop_shortest_chains gTwoStep "a" "b" =
      (popAux "a" "b" (gTwoStep.edges.length + 1) gTwoStep).1.map Prod.snd :=
  pop_shortest_chains_spec gTwoStep "a" "b" (by decide)

/-- The graph refuting the exact-union reading of C1: edges a-to-x, x-to-b,
x-to-y, y-to-b.  The first extraction removes the shortest chain a, x, b,
after which a and b are disconnected, so the edge (x, y) - which lies on the
original path a, x, y, b - is never removed or reported. -/
def gOverlap : ImportGraph :=
  ⟨[⟨"a", "x", []⟩, ⟨"x", "b", []⟩, ⟨"x", "y", []⟩, ⟨"y", "b", []⟩]⟩

/-- C1 (counterexample): the union of removed edges does not equal the set of
edges originally reachable along some a-to-b path: the edge (x, y) lies on
the original a-to-b path a, x, y, b of gOverlap, which has no direct a-to-b
edge, yet no chain yielded by the loop contains it. -/
theorem pop_union_not_exact_counterexample :
    gOverlap.hasEdge "a" "b" = false ∧
    IsChain gOverlap "a" "b" ["a", "x", "y", "b"] ∧
    ("x", "y") ∈ pairsOf ["a", "x", "y", "b"] ∧
    ∀ c ∈ _pop_shortest_chains gOverlap "a" "b", ("x", "y") ∉ pairsOf c := by
  decide

/-- C1 (amended): for every graph and distinct module pair with no direct
edge, every chain yielded by the extract-and-remove loop is a path of the
original graph (so each removed edge lies on an original a-to-b path - the
union of removed edges is contained in, though not necessarily equal to, the
set of edges on original a-to-b paths); no edge is reported twice within a
chain; chains are pairwise edge-disjoint; and the loop stops only once no
a-to-b path remains. -/
theorem pop_chains_edge_disjoint (g : ImportGraph) (a b : String) (hab : a ≠ b)
    (hdirect : g.hasEdge a b = false) :
    (∀ c ∈ _pop_shortest_chains g a b, IsChain g a b c) ∧
    (∀ c ∈ _pop_shortest_chains g a b, (pairsOf c).Nodup) ∧
    (∀ (i j : Nat) (ci cj : List String), i < j →
        (_pop_shortest_chains g a b).get? i = some ci →
        (_pop_shortest_chains g a b).get? j = some cj →
        ∀ e ∈ pairsOf ci, e ∉ pairsOf cj) ∧
    (∀ p, ¬ IsChain (popAux a b (g.edges.length + 1) g).2 a b p) := by
  refine ⟨?_, ?_, ?_, ?_⟩
  · intro c hc
    rcases List.mem_map.1 hc with ⟨pr, hpr, rfl⟩
    have hfsc := popAux_entry_fsc hpr
    have hchain : IsChain pr.1 a b pr.2 := find_shortest_chain_isChain hfsc
    exact ⟨hchain.1, hchain.2.1, isChainB_mono (popAux_subgraph hpr) hchain.2.2⟩
  · intro c hc
    rcases List.mem_map.1 hc with ⟨pr, hpr, rfl⟩
    have hfsc := popAux_entry_fsc hpr
    exact pairsOf_nodup_of_nodup (find_shortest_chain_sound hfsc).2.2.2
  · intro i j ci cj hij hi hj e hei hej
    rw [_pop_shortest_chains, List.get?_map] at hi hj
    cases hpi : (popAux a b (g.edges.length + 1) g).1.get? i with
    | none => rw [hpi] at hi; cases hi
    | some pri =>
      cases hpj : (popAux a b (g.edges.length + 1) g).1.get? j with
      | none => rw [hpj] at hj; cases hj
      | some prj =>
        rw [hpi] at hi
        rw [hpj] at hj
        have hci : pri.2 = ci := by simpa using hi
        have hcj : prj.2 = cj := by simpa using hj
        subst hci
        subst hcj
        have hsub : prj.1.edges ⊆ (removeChainEdges pri.1 pri.2).edges :=
          popAux_later_in_removed i j hij hpi hpj
        have hjchain : isChainB prj.1 prj.2 = true :=
          (find_shortest_chain_sound (popAux_entry_fsc (List.get?_mem hpj))).2.2.1
        have htrue : (removeChainEdges pri.1 pri.2).hasEdge e.1 e.2 = true :=
          hasEdge_of_subset hsub (hasEdge_of_mem_pairsOf hjchain hej)
        have hfalse : (removeChainEdges pri.1 pri.2).hasEdge e.1 e.2 = false :=
          hasEdge_removeChainEdges_of_mem_pairs hei
        rw [htrue] at hfalse
        cases hfalse
  · exact find_shortest_chain_none hab (popAux_final_none hab (Nat.lt_succ_self _))

/-- C1 (witness): the amended statement holds on the concrete graph gOverlap
with distinct endpoints and no direct edge. -/
theorem pop_chains_edge_disjoint_witness :
    (∀ c ∈ _pop_shortest_chains gOverlap "a" "b", IsChain gOverlap "a" "b" c) ∧
    (∀ c ∈ _pop_shortest_chains gOverlap "a" "b", (pairsOf c).Nodup) ∧
    (∀ (i j : Nat) (ci cj : List String), i < j →
        (_pop_shortest_chains gOverlap "a" "b").get? i = some ci →
        (_pop_shortest_chains gOverlap "a" "b").get? j = some cj →
        ∀ e ∈ pairsOf ci, e ∉ pairsOf cj) ∧
    (∀ p, ¬ IsChain (popAux "a" "b" (gOverlap.edges.length + 1) gOverlap).2 "a" "b" p) :=
  pop_chains_edge_disjoint gOverlap "a" "b" (by decide) (by decide)

/-! ### The string ordering used by sorted(...) -/

theorem charLtB_lt {a b : Char} : charLtB a b = true ↔ a.val.toNat < b.val.toNat := by
  simp [charLtB]

theorem char_eq_of_toNat_eq {a b : Char} (h : a.val.toNat = b.val.toNat) : a = b :=
  Char.ext (UInt32.ext h)

theorem lexLtB_trans : ∀ {as bs cs : List Char}, lexLtB as bs = true → lexLtB bs cs = true →
    lexLtB as cs = true := by
  intro as
  induction as with
  | nil =>
    intro bs cs h1 h2
    cases bs with
    | nil => cases h1
    | cons b bs' =>
      cases cs with
      | nil => cases h2
      | cons c cs' => rfl
  | cons a as' ih =>
    intro bs cs h1 h2
    cases bs with
    | nil => cases h1
    | cons b bs' =>
      cases cs with
      | nil => cases h2
      | cons c cs' =>
        rw [lexLtB] at h1 h2 ⊢
        by_cases hab : a = b
        · rw [if_pos hab] at h1
          by_cases hbc : b = c
          · rw [if_pos (hab.trans hbc)]
            rw [if_pos hbc] at h2
            exact ih h1 h2
          · rw [if_neg hbc] at h2
            have hac : ¬ a = c := by rw [hab]; exact hbc
            rw [if_neg hac, hab]
            exact h2
        · rw [if_neg hab] at h1
          by_cases hbc : b = c
          · have hac : ¬ a = c := by rw [← hbc]; exact hab
            rw [if_neg hac, ← hbc]
            exact h1
          · rw [if_neg hbc] at h2
            have hvab : a.val.toNat < b.val.toNat := charLtB_lt.1 h1
            have hvbc : b.val.toNat < c.val.toNat := charLtB_lt.1 h2
            have hac : ¬ a = c := by
              intro h
              subst h
              exact Nat.lt_irrefl _ (Nat.lt_trans hvab hvbc)
            rw [if_neg hac]
            exact charLtB_lt.2 (Nat.lt_trans hvab hvbc)

theorem lexLtB_total : ∀ as bs : List Char,
    as = bs ∨ lexLtB as bs = true ∨ lexLtB bs as = true := by
  intro as
  induction as with
  | nil =>
    intro bs
    cases bs with
    | nil => exact Or.inl rfl
    | cons b bs' => exact Or.inr (Or.inl rfl)
  | cons a as' ih =>
    intro bs
    cases bs with
    | nil => exact Or.inr (Or.inr rfl)
    | cons b bs' =>
      by_cases hab : a = b
      · subst hab
        rcases ih bs' with h | h | h
        · exact Or.inl (by rw [h])
        · refine Or.inr (Or.inl ?_)
          rw [lexLtB, if_pos rfl]
          exact h
        · refine Or.inr (Or.inr ?_)
          rw [lexLtB, if_pos rfl]
          exact h
      · have hv : a.val.toNat ≠ b.val.toNat := fun h => hab (char_eq_of_toNat_eq h)
        rcases Nat.lt_or_ge a.val.toNat b.val.toNat with h | h
        · refine Or.inr (Or.inl ?_)
          rw [lexLtB, if_neg hab]
          exact charLtB_lt.2 h
        · have hlt : b.val.toNat < a.val.toNat := lt_of_le_of_ne h (Ne.symm hv)
          refine Or.inr (Or.inr ?_)
          rw [lexLtB, if_neg fun hba => hab hba.symm]
          exact charLtB_lt.2 hlt

theorem strLeB_refl (s : String) : strLeB s s = true := by
  simp [strLeB]

instance : IsTotal String (fun a b => strLeB a b = true) := by
  constructor
  intro s t
  rcases lexLtB_total s.data t.data with h | h | h
  · left
    have : s = t := String.ext h
    rw [this]
    exact strLeB_refl t
  · left
    rw [strLeB, h, Bool.or_true]
  · right
    rw [strLeB, h, Bool.or_true]

instance : IsTrans String (fun a b => strLeB a b = true) := by
  constructor
  intro s t u h1 h2
  rw [strLeB, Bool.or_eq_true, beq_iff_eq] at h1 h2
  rcases h1 with rfl | h1
  · show strLeB s u = true
    rw [strLeB, Bool.or_eq_true, beq_iff_eq]
    exact h2
  · rcases h2 with rfl | h2
    · show strLeB s t = true
      rw [strLeB, Bool.or_eq_true]
      exact Or.inr h1
    · show strLeB s u = true
      rw [strLeB, Bool.or_eq_true]
      exact Or.inr (lexLtB_trans h1 h2)

theorem sortStr_sorted (l : List String) :
    (sortStr l).Sorted (fun a b => strLeB a b = true) :=
  List.sorted_insertionSort _ l

theorem sortStr_perm (l : List String) : (sortStr l).Perm l :=
  List.perm_insertionSort _ l

theorem sorted_head_min {l : List String} {x : String}
    (hs : l.Sorted (fun a b => strLeB a b = true)) (hh : l.head? = some x) :
    ∀ y ∈ l, strLeB x y = true := by
  cases l with
  | nil => cases hh
  | cons z zs =>
    have hz : z = x := by simpa using hh
    subst hz
    intro y hy
    rcases List.mem_cons.1 hy with rfl | hy'
    · exact strLeB_refl y
    · exact List.rel_of_sorted_cons hs y hy'

theorem sorted_filter {l : List String} (p : String → Bool)
    (hs : l.Sorted (fun a b => strLeB a b = true)) :
    (l.filter p).Sorted (fun a b => strLeB a b = true) :=
  List.Pairwise.sublist (List.filter_sublist l) hs

/-! ### Claim C3 -/

theorem pairsOf_length (c : List String) : (pairsOf c).length = c.length - 1 := by
  cases c with
  | nil => rfl
  | cons x xs =>
    simp only [pairsOf, List.length_zip, List.tail_cons, List.length_cons]
    omega

theorem segmentOfChain_length (reference_graph : ImportGraph) (c : List String) :
    (segmentOfChain reference_graph c).length = c.length - 1 := by
  rw [segmentOfChain, List.length_map, pairsOf_length]

theorem mem_pop_two_le_length {g : ImportGraph} {a b : String} (hab : a ≠ b)
    {c : List String} (hc : c ∈ _pop_shortest_chains g a b) : 2 ≤ c.length := by
  rcases List.mem_map.1 hc with ⟨pr, hpr, rfl⟩
  exact IsChain.two_le_length hab (find_shortest_chain_isChain (popAux_entry_fsc hpr))

/-- C3: if the extraction loop discovers a chain with exactly two nodes (a
direct importer-to-imported edge), find_segments fails with the fatal
ValueError instead of continuing; conversely, whenever find_segments returns
segments, every returned segment has at least three nodes, that is, at least
two links. -/
theorem find_segments_two_node_check (graph reference_graph : ImportGraph)
    (importer imported : Module) (hab : importer.name ≠ imported.name) :
    ((∃ c ∈ _pop_shortest_chains graph importer.name imported.name, c.length = 2) →
        find_segments graph reference_graph importer imported =
          Except.error "Direct chain found - these should have been removed.") ∧
    (∀ segments, find_segments graph reference_graph importer imported = Except.ok segments →
        ∀ s ∈ segments, 2 ≤ s.length) := by
  constructor
  · rintro ⟨c, hc, hclen⟩
    have hany : (_pop_shortest_chains graph importer.name imported.name).any
        (fun c => c.length == 2) = true :=
      List.any_eq_true.2 ⟨c, hc, by simp [hclen]⟩
    rw [find_segments]
    simp only [hany, if_true]
  · intro segments hok s hs
    rw [find_segments] at hok
    by_cases hany : (_pop_shortest_chains graph importer.name imported.name).any
        (fun c => c.length == 2) = true
    · rw [if_pos hany] at hok
      cases hok
    · rw [if_neg hany] at hok
      have hseg : (_pop_shortest_chains graph importer.name imported.name).map
          (segmentOfChain reference_graph) = segments := by
        injection hok
      rw [← hseg] at hs
      rcases List.mem_map.1 hs with ⟨c, hc, rfl⟩
      have h2 : 2 ≤ c.length := mem_pop_two_le_length hab hc
      have hne2 : c.length ≠ 2 := by
        intro hlen
        exact hany (List.any_eq_true.2 ⟨c, hc, by simp [hlen]⟩)
      rw [segmentOfChain_length]
      omega

/-- C3 (witness): on a concrete two-edge graph with distinct endpoints, the
two-node check specification holds. -/
theorem find_segments_two_node_check_witness :
    ((∃ c ∈ _pop_shortest_chains gTwoStep "a" "b", c.length = 2) →
        find_segments gTwoStep gTwoStep (Module.mk "a") (Module.mk "b") =
          Except.error "Direct chain found - these should have been removed.") ∧
    (∀ segments, find_segments gTwoStep gTwoStep (Module.mk "a") (Module.mk "b") =
        Except.ok segments → ∀ s ∈ segments, 2 ≤ s.length) :=
  find_segments_two_node_check gTwoStep gTwoStep (Module.mk "a") (Module.mk "b") (by decide)

/-! ### Claims C6 and C7 -/

theorem collapseSegment_eq {graph : ImportGraph} {importer imported : Module}
    {s : List Link} {fst lst : Link} (hhead : s.head? = some fst)
    (hlast : s.getLast? = some lst) {h0 t0 : Link} {hrest trest : List Link}
    (hh : headImportsOf graph importer fst.imported = h0 :: hrest)
    (ht : tailImportsOf graph imported lst.importer = t0 :: trest) :
    collapseSegment graph importer imported s =
      Except.ok ⟨[h0] ++ (s.drop 1).dropLast ++ [t0], hrest, trest⟩ := by
  simp only [collapseSegment, hhead, hlast, hh, ht, List.head?_cons, List.drop_succ_cons,
    List.drop_zero]

theorem collapseSegment_error_of_empty_expansion {graph : ImportGraph}
    {importer imported : Module} {s : List Link} {fst lst : Link}
    (hhead : s.head? = some fst) (hlast : s.getLast? = some lst)
    (hempty : headImportsOf graph importer fst.imported = [] ∨
      tailImportsOf graph imported lst.importer = []) :
    collapseSegment graph importer imported s = Except.error "list index out of range" := by
  rcases hempty with h | h
  · simp only [collapseSegment, hhead, hlast, h, List.head?_nil]
  · cases hh : headImportsOf graph importer fst.imported with
    | nil => simp only [collapseSegment, hhead, hlast, hh, List.head?_nil]
    | cons x xs => simp only [collapseSegment, hhead, hlast, hh, h, List.head?_cons,
        List.head?_nil]

theorem segments_error_of_mem {graph : ImportGraph} {importer imported : Module}
    {segments : List (List Link)} {s : List Link} (hs : s ∈ segments) {e : String}
    (herr : collapseSegment graph importer imported s = Except.error e) :
    ∃ msg, segments_to_collapsed_chains graph segments importer imported =
      Except.error msg := by
  induction segments with
  | nil => cases hs
  | cons t rest ih =>
    rw [segments_to_collapsed_chains]
    rcases List.mem_cons.1 hs with rfl | hs'
    · rw [herr]
      exact ⟨e, rfl⟩
    · cases hcol : collapseSegment graph importer imported t with
      | error e' => exact ⟨e', rfl⟩
      | ok dc =>
        rcases ih hs' with ⟨msg, hmsg⟩
        rw [hmsg]
        exact ⟨msg, rfl⟩

/-- A one-edge graph whose only edge joins a descendant of p to a descendant
of q. -/
def gDirect : ImportGraph :=
  ⟨[⟨"p.a", "q.b", [1]⟩]⟩

/-- C6 (counterexample): feeding a single-link segment (a direct edge, two
nodes) to segments_to_collapsed_chains does not raise a fatal invariant
violation: the collapsing stage performs no length validation and happily
returns a DetailedChain, with the link appearing twice (as both primary head
link and primary tail link). -/
theorem collapse_single_link_counterexample :
    segments_to_collapsed_chains gDirect
        [[⟨"p.a", "q.b", [some 1]⟩]] (Module.mk "p") (Module.mk "q") =
      Except.ok [⟨[⟨"p.a", "q.b", [some 1]⟩, ⟨"p.a", "q.b", [some 1]⟩], [], []⟩] := by
  rfl

/-- C6 (amended): segments_to_collapsed_chains applies no single-link check:
a single-link segment is collapsed without error whenever its two boundary
expansions are non-empty, producing the primary head link directly followed
by the primary tail link; only an empty boundary expansion makes the stage
abort. -/
theorem collapse_single_link_ok (graph : ImportGraph) (importer imported : Module)
    (l h0 t0 : Link) (hrest trest : List Link)
    (hhead : headImportsOf graph importer l.imported = h0 :: hrest)
    (htail : tailImportsOf graph imported l.importer = t0 :: trest) :
    segments_to_collapsed_chains graph [[l]] importer imported =
      Except.ok [⟨[h0, t0], hrest, trest⟩] := by
  have hcol := collapseSegment_eq (s := [l]) rfl rfl hhead htail
  simp only [List.drop_succ_cons, List.drop_nil, List.dropLast_nil, List.nil_append,
    List.singleton_append] at hcol
  simp only [segments_to_collapsed_chains, hcol]

/-- C6 (amended, witness): the single-link collapse goes through on the
concrete one-edge graph gDirect. -/
theorem collapse_single_link_ok_witness :
    segments_to_collapsed_chains gDirect [[⟨"p.a", "q.b", [some 1]⟩]]
        (Module.mk "p") (Module.mk "q") =
      Except.ok [⟨[⟨"p.a", "q.b", [some 1]⟩, ⟨"p.a", "q.b", [some 1]⟩], [], []⟩] :=
  collapse_single_link_ok gDirect (Module.mk "p") (Module.mk "q")
    ⟨"p.a", "q.b", [some 1]⟩ ⟨"p.a", "q.b", [some 1]⟩ ⟨"p.a", "q.b", [some 1]⟩ [] []
    (by decide) (by decide)

/-- C7: whenever the head expansion of some segment or tail expansion yields zero
candidate modules after the equal-or-descendant filter, the collapsing stage
aborts with an error (the IndexError of head_imports[0] or tail_imports[0])
instead of returning a result. -/
theorem collapse_empty_expansion_error (graph : ImportGraph) (importer imported : Module)
    (segments : List (List Link)) (s : List Link) (hs : s ∈ segments) (fst lst : Link)
    (hhead : s.head? = some fst) (hlast : s.getLast? = some lst)
    (hempty : headImportsOf graph importer fst.imported = [] ∨
      tailImportsOf graph imported lst.importer = []) :
    ∃ msg, segments_to_collapsed_chains graph segments importer imported =
      Except.error msg :=
  segments_error_of_mem hs (collapseSegment_error_of_empty_expansion hhead hlast hempty)

/-- A one-edge graph whose only importer of q.b is unrelated to the module p,
so the head expansion for importer p is empty. -/
def gUnrelated : ImportGraph :=
  ⟨[⟨"r.a", "q.b", [1]⟩]⟩

/-- C7 (witness): on the concrete graph gUnrelated the head expansion for
importer p is empty and the collapsing stage aborts. -/
theorem collapse_empty_expansion_error_witness :
    ∃ msg, segments_to_collapsed_chains gUnrelated [[⟨"r.a", "q.b", [some 1]⟩]]
        (Module.mk "p") (Module.mk "q") = Except.error msg :=
  collapse_empty_expansion_error gUnrelated (Module.mk "p") (Module.mk "q")
    [[⟨"r.a", "q.b", [some 1]⟩]] [⟨"r.a", "q.b", [some 1]⟩] (by simp)
    ⟨"r.a", "q.b", [some 1]⟩ ⟨"r.a", "q.b", [some 1]⟩ rfl rfl (Or.inl (by decide))

/-! ### Claim C4 -/

theorem headImportsOf_head_min {graph : ImportGraph} {importer : Module} {im : String}
    {h0 : Link} (hh : (headImportsOf graph importer im).head? = some h0) :
    ∀ lk ∈ headImportsOf graph importer im, strLeB h0.importer lk.importer = true := by
  simp only [headImportsOf] at hh ⊢
  rw [List.head?_map] at hh
  cases hfl : ((sortStr (graph.find_modules_that_directly_import im)).filter fun m =>
      Module.mk m == importer || (Module.mk m).is_descendant_of importer).head? with
  | none => rw [hfl] at hh; cases hh
  | some m0 =>
    rw [hfl] at hh
    have hm0 : h0.importer = m0 := by
      have : some h0 = some _ := hh.symm
      rw [Option.some_inj] at this
      rw [this]
    intro lk hlk
    rcases List.mem_map.1 hlk with ⟨m, hm, rfl⟩
    rw [hm0]
    exact sorted_head_min (sorted_filter _ (sortStr_sorted _)) hfl m hm

theorem tailImportsOf_head_min {graph : ImportGraph} {imported : Module} {im : String}
    {t0 : Link} (ht : (tailImportsOf graph imported im).head? = some t0) :
    ∀ lk ∈ tailImportsOf graph imported im, strLeB t0.imported lk.imported = true := by
  simp only [tailImportsOf] at ht ⊢
  rw [List.head?_map] at ht
  cases hfl : ((sortStr (graph.find_modules_directly_imported_by im)).filter fun m =>
      Module.mk m == imported || (Module.mk m).is_descendant_of imported).head? with
  | none => rw [hfl] at ht; cases ht
  | some m0 =>
    rw [hfl] at ht
    have hm0 : t0.imported = m0 := by
      have : some t0 = some _ := ht.symm
      rw [Option.some_inj] at this
      rw [this]
    intro lk hlk
    rcases List.mem_map.1 hlk with ⟨m, hm, rfl⟩
    rw [hm0]
    exact sorted_head_min (sorted_filter _ (sortStr_sorted _)) hfl m hm

/-- C4: for every segment and original importer/imported modules, the
collapsing stage expands the head boundary (the imported module of the first link)
over exactly the modules that directly import it, sorted lexicographically
and filtered to those equal to or a descendant of the original importer, each
annotated with collapsed line numbers from the graph; the lexicographically
smallest candidate forms the first link of the primary chain and the rest
become extra_firsts; symmetrically, the tail boundary (the importer of the last link) expands over the modules it directly imports, filtered against the
original imported module, giving the primary tail link and extra_lasts; the
resulting chain is the primary head link, then segment[1:-1], then the
primary tail link. -/
theorem segments_to_collapsed_chains_spec (graph : ImportGraph) (importer imported : Module)
    (s : List Link) (fst lst : Link) (hhead : s.head? = some fst)
    (hlast : s.getLast? = some lst) (h0 t0 : Link) (hrest trest : List Link)
    (hh : headImportsOf graph importer fst.imported = h0 :: hrest)
    (ht : tailImportsOf graph imported lst.importer = t0 :: trest) :
    segments_to_collapsed_chains graph [s] importer imported =
      Except.ok [⟨[h0] ++ (s.drop 1).dropLast ++ [t0], hrest, trest⟩] ∧
    headImportsOf graph importer fst.imported =
      ((sortStr (graph.find_modules_that_directly_import fst.imported)).filter fun m =>
          Module.mk m == importer || (Module.mk m).is_descendant_of importer).map (fun m =>
        ⟨m, fst.imported,
          (collapsedLineNumbers (graph.get_import_details m fst.imported)).map some⟩) ∧
    tailImportsOf graph imported lst.importer =
      ((sortStr (graph.find_modules_directly_imported_by lst.importer)).filter fun m =>
          Module.mk m == imported || (Module.mk m).is_descendant_of imported).map (fun m =>
        ⟨lst.importer, m,
          (collapsedLineNumbers (graph.get_import_details lst.importer m)).map some⟩) ∧
    (∀ lk ∈ headImportsOf graph importer fst.imported, strLeB h0.importer lk.importer = true) ∧
    (∀ lk ∈ tailImportsOf graph imported lst.importer, strLeB t0.imported lk.imported = true) := by
  refine ⟨?_, rfl, rfl, ?_, ?_⟩
  · have hcol := collapseSegment_eq hhead hlast hh ht
    simp only [segments_to_collapsed_chains, hcol]
  · exact headImportsOf_head_min (by rw [hh]; rfl)
  · exact tailImportsOf_head_min (by rw [ht]; rfl)

/-- A graph on which both boundary expansions of the middle segment are
non-trivial: two submodules of p import m, and m imports one submodule of
q. -/
def gExpand : ImportGraph :=
  ⟨[⟨"p.a", "m", [4]⟩, ⟨"p.b", "m", [2]⟩, ⟨"m", "q.c", [7]⟩]⟩

/-- C4 (witness): the collapsing specification holds on the concrete graph
gExpand, where the head boundary m has the two importer candidates p.a and
p.b and the tail boundary m has the single imported candidate q.c. -/
theorem segments_to_collapsed_chains_spec_witness :
    segments_to_collapsed_chains gExpand
        [[⟨"p.a", "m", [some 4]⟩, ⟨"m", "q.c", [some 7]⟩]] (Module.mk "p") (Module.mk "q") =
      Except.ok [⟨[⟨"p.a", "m", [some 4]⟩] ++
        (([⟨"p.a", "m", [some 4]⟩, ⟨"m", "q.c", [some 7]⟩] : List Link).drop 1).dropLast ++
        [⟨"m", "q.c", [some 7]⟩], [⟨"p.b", "m", [some 2]⟩], []⟩] ∧
    headImportsOf gExpand (Module.mk "p") (Link.imported ⟨"p.a", "m", [some 4]⟩) =
      ((sortStr (gExpand.find_modules_that_directly_import
          (Link.imported ⟨"p.a", "m", [some 4]⟩))).filter fun m =>
        Module.mk m == Module.mk "p" || (Module.mk m).is_descendant_of (Module.mk "p")).map
        (fun m => ⟨m, Link.imported ⟨"p.a", "m", [some 4]⟩,
          (collapsedLineNumbers (gExpand.get_import_details m
            (Link.imported ⟨"p.a", "m", [some 4]⟩))).map some⟩) ∧
    tailImportsOf gExpand (Module.mk "q") (Link.importer ⟨"m", "q.c", [some 7]⟩) =
      ((sortStr (gExpand.find_modules_directly_imported_by
          (Link.importer ⟨"m", "q.c", [some 7]⟩))).filter fun m =>
        Module.mk m == Module.mk "q" || (Module.mk m).is_descendant_of (Module.mk "q")).map
        (fun m => ⟨Link.importer ⟨"m", "q.c", [some 7]⟩, m,
          (collapsedLineNumbers (gExpand.get_import_details
            (Link.importer ⟨"m", "q.c", [some 7]⟩) m)).map some⟩) ∧
    (∀ lk ∈ headImportsOf gExpand (Module.mk "p") (Link.imported ⟨"p.a", "m", [some 4]⟩),
      strLeB (Link.importer ⟨"p.a", "m", [some 4]⟩) lk.importer = true) ∧
    (∀ lk ∈ tailImportsOf gExpand (Module.mk "q") (Link.importer ⟨"m", "q.c", [some 7]⟩),
      strLeB (Link.imported ⟨"m", "q.c", [some 7]⟩) lk.imported = true) :=
  segments_to_collapsed_chains_spec gExpand (Module.mk "p") (Module.mk "q")
    [⟨"p.a", "m", [some 4]⟩, ⟨"m", "q.c", [some 7]⟩]
    ⟨"p.a", "m", [some 4]⟩ ⟨"m", "q.c", [some 7]⟩ rfl rfl
    ⟨"p.a", "m", [some 4]⟩ ⟨"m", "q.c", [some 7]⟩ [⟨"p.b", "m", [some 2]⟩] []
    (by decide) (by decide)

/-! ### Claims C8, C9 and C10 -/

theorem intercalate_go_append (s : String) :
    ∀ (l : List String) (acc1 acc2 : String),
      String.intercalate.go (acc1 ++ acc2) s l = acc1 ++ String.intercalate.go acc2 s l := by
  intro l
  induction l with
  | nil => intro acc1 acc2; rfl
  | cons c cs ih =>
    intro acc1 acc2
    show String.intercalate.go (acc1 ++ acc2 ++ s ++ c) s cs =
      acc1 ++ String.intercalate.go (acc2 ++ s ++ c) s cs
    rw [show acc1 ++ acc2 ++ s ++ c = acc1 ++ (acc2 ++ s ++ c) by
      simp [String.append_assoc]]
    exact ih acc1 (acc2 ++ s ++ c)

theorem intercalate_cons_cons (s a b : String) (l : List String) :
    String.intercalate s (a :: b :: l) = a ++ s ++ String.intercalate s (b :: l) := by
  show String.intercalate.go a s (b :: l) = a ++ s ++ String.intercalate.go b s l
  show String.intercalate.go (a ++ s ++ b) s l = a ++ s ++ String.intercalate.go b s l
  rw [String.append_assoc a s b, intercalate_go_append s l a (s ++ b),
    intercalate_go_append s l s b, String.append_assoc]

/-- A graph holding the direct edge a to b with no recorded import
details. -/
def gNoDetail : ImportGraph :=
  ⟨[⟨"a", "b", []⟩]⟩

/-- C8: format_line_numbers renders an unknown (None) entry as the literal
token l.?, a known number n as l.n, and joins multiple entries with
a comma and a space; in particular an edge for which the graph records
no recorded detail renders as the note a -> b (l.?). -/
theorem format_line_numbers_spec :
    (format_line_numbers [none] = "l.?") ∧
    (∀ n : Nat, format_line_numbers [some n] = "l." ++ toString n) ∧
    (∀ x xs, xs ≠ [] →
      format_line_numbers (x :: xs) = renderLineNumber x ++ ", " ++ format_line_numbers xs) ∧
    (renderLineNumber none = "l.?") ∧
    (∀ n : Nat, renderLineNumber (some n) = "l." ++ toString n) ∧
    gNoDetail.get_import_details "a" "b" = [] ∧
    ImportNote.render ⟨"a", "a -> b", get_line_numbers "a" "b" gNoDetail⟩ = "a -> b (l.?)" := by
  refine ⟨rfl, fun n => rfl, ?_, rfl, fun n => rfl, rfl, rfl⟩
  intro x xs hne
  cases xs with
  | nil => exact absurd rfl hne
  | cons y ys =>
    show String.intercalate ", " (renderLineNumber x :: renderLineNumber y ::
      ys.map renderLineNumber) = _
    rw [intercalate_cons_cons]
    rfl

/-- C8 (witness): the joining rule applied at a concrete two-element list. -/
theorem format_line_numbers_spec_witness :
    format_line_numbers [some 3, none] =
      renderLineNumber (some 3) ++ ", " ++ format_line_numbers [none] :=
  format_line_numbers_spec.2.2.1 (some 3) [none] (by decide)

theorem getLast?_cons_getLastD (e : Link) (es : List Link) :
    (e :: es).getLast? = some (es.getLastD e) := by
  induction es generalizing e with
  | nil => rfl
  | cons f fs ih =>
    rw [List.getLast?_cons_cons, ih f, List.getLastD_cons]

theorem notes_from_chain_data_decompose (first : Link) (rest : List Link) (ef el : List Link) :
    ∃ restNotes, notes_from_chain_data ⟨first :: rest, ef, el⟩ =
      Except.ok (_notes_from_direct_import first ef [] ++ restNotes) := by
  by_cases hrest : rest.length + 1 > 1
  · refine ⟨(rest.dropLast.flatMap fun di => _notes_from_direct_import di [] []) ++
      _notes_from_direct_import (rest.getLastD first) [] el, ?_⟩
    simp [notes_from_chain_data, hrest, List.append_assoc]
  · refine ⟨rest.dropLast.flatMap fun di => _notes_from_direct_import di [] [], ?_⟩
    simp [notes_from_chain_data, hrest]

/-- C9: notes_from_chain_data renders the first link of the chain specially:
when extra_firsts is non-empty it emits the primary importer alone with no
prefix, then each remaining extra-first importer prefixed with an ampersand
except the last, and the final extra-first as an ampersand-prefixed
importer -> imported note; when extra_firsts is empty it emits
importer -> imported directly. -/
theorem notes_first_link_spec (chain_data : DetailedChain) (first : Link) (rest : List Link)
    (hchain : chain_data.chain = first :: rest) :
    (chain_data.extra_firsts = [] →
      ∃ restNotes, notes_from_chain_data chain_data = Except.ok
        (⟨first.importer, first.importer ++ " -> " ++ first.imported, first.line_numbers⟩ ::
          restNotes)) ∧
    (∀ e es, chain_data.extra_firsts = e :: es →
      ∃ restNotes, notes_from_chain_data chain_data = Except.ok
        ((⟨first.importer, first.importer, first.line_numbers⟩ ::
          (e :: es).dropLast.map fun s => ⟨s.importer, "& " ++ s.importer, s.line_numbers⟩) ++
         (⟨(es.getLastD e).importer,
            "& " ++ (es.getLastD e).importer ++ " -> " ++ (es.getLastD e).imported,
            (es.getLastD e).line_numbers⟩ :: restNotes))) := by
  obtain ⟨ch, ef, el⟩ := chain_data
  have hch : ch = first :: rest := hchain
  subst hch
  constructor
  · intro hef
    have hef' : ef = [] := hef
    subst hef'
    obtain ⟨X, hX⟩ := notes_from_chain_data_decompose first rest [] el
    refine ⟨X, ?_⟩
    rw [hX]
    have hA : _notes_from_direct_import first [] [] =
        [⟨first.importer, first.importer ++ " -> " ++ first.imported, first.line_numbers⟩] := by
      simp [_notes_from_direct_import]
    rw [hA]
    rfl
  · intro e es hef
    have hef' : ef = e :: es := hef
    subst hef'
    obtain ⟨X, hX⟩ := notes_from_chain_data_decompose first rest (e :: es) el
    refine ⟨X, ?_⟩
    rw [hX]
    have hA : _notes_from_direct_import first (e :: es) [] =
        (⟨first.importer, first.importer, first.line_numbers⟩ ::
          (e :: es).dropLast.map fun s => ⟨s.importer, "& " ++ s.importer, s.line_numbers⟩) ++
        [⟨(es.getLastD e).importer,
          "& " ++ (es.getLastD e).importer ++ " -> " ++ (es.getLastD e).imported,
          (es.getLastD e).line_numbers⟩] := by
      simp [_notes_from_direct_import, getLast?_cons_getLastD]
    rw [hA]
    simp [List.append_assoc]

/-- C9 (witness): the first-link rendering rule applied to a concrete
detailed chain with two extra firsts. -/
theorem notes_first_link_spec_witness :
    ((([⟨"a2", "m", [some 3]⟩, ⟨"a3", "m", [some 4]⟩] : List Link) = [] →
      ∃ restNotes,
        notes_from_chain_data
          ⟨[⟨"a", "m", [some 1]⟩, ⟨"m", "b", [some 2]⟩],
            [⟨"a2", "m", [some 3]⟩, ⟨"a3", "m", [some 4]⟩], []⟩ = Except.ok
          (⟨Link.importer ⟨"a", "m", [some 1]⟩,
            Link.importer ⟨"a", "m", [some 1]⟩ ++ " -> " ++ Link.imported ⟨"a", "m", [some 1]⟩,
            Link.line_numbers ⟨"a", "m", [some 1]⟩⟩ :: restNotes))) ∧
    (∀ e es, ([⟨"a2", "m", [some 3]⟩, ⟨"a3", "m", [some 4]⟩] : List Link) = e :: es →
      ∃ restNotes,
        notes_from_chain_data
          ⟨[⟨"a", "m", [some 1]⟩, ⟨"m", "b", [some 2]⟩],
            [⟨"a2", "m", [some 3]⟩, ⟨"a3", "m", [some 4]⟩], []⟩ = Except.ok
          ((⟨Link.importer ⟨"a", "m", [some 1]⟩, Link.importer ⟨"a", "m", [some 1]⟩,
              Link.line_numbers ⟨"a", "m", [some 1]⟩⟩ ::
            (e :: es).dropLast.map fun s => ⟨s.importer, "& " ++ s.importer, s.line_numbers⟩) ++
           (⟨(es.getLastD e).importer,
              "& " ++ (es.getLastD e).importer ++ " -> " ++ (es.getLastD e).imported,
              (es.getLastD e).line_numbers⟩ :: restNotes))) :=
  notes_first_link_spec
    ⟨[⟨"a", "m", [some 1]⟩, ⟨"m", "b", [some 2]⟩],
      [⟨"a2", "m", [some 3]⟩, ⟨"a3", "m", [some 4]⟩], []⟩
    ⟨"a", "m", [some 1]⟩ [⟨"m", "b", [some 2]⟩] rfl

/-- A graph whose single edge carries duplicated, unsorted line-number
details. -/
def gDup : ImportGraph :=
  ⟨[⟨"a", "b", [7, 3, 7]⟩]⟩

/-- C10: get_line_numbers never returns an empty tuple - it returns the
one-element unknown tuple when the graph has no detail records for the pair,
and otherwise the line numbers of the details in graph order without sorting or
de-duplication; by contrast the collapsed line numbers built inside
find_segments and segments_to_collapsed_chains are sorted, de-duplicated and
empty when no details exist. -/
theorem get_line_numbers_spec :
    (∀ (a b : String) (g : ImportGraph), get_line_numbers a b g ≠ []) ∧
    (∀ (a b : String) (g : ImportGraph), g.get_import_details a b = [] →
        get_line_numbers a b g = [none]) ∧
    (∀ (a b : String) (g : ImportGraph), g.get_import_details a b ≠ [] →
        get_line_numbers a b g = (g.get_import_details a b).map some) ∧
    collapsedLineNumbers [] = [] ∧
    (∀ d, (collapsedLineNumbers d).Sorted (· ≤ ·)) ∧
    (∀ d, (collapsedLineNumbers d).Nodup) ∧
    get_line_numbers "a" "b" gDup = [some 7, some 3, some 7] ∧
    collapsedLineNumbers (gDup.get_import_details "a" "b") = [3, 7] := by
  refine ⟨?_, ?_, ?_, rfl, ?_, ?_, rfl, rfl⟩
  · intro a b g
    rw [get_line_numbers]
    cases hd : g.get_import_details a b with
    | nil => simp
    | cons x xs => simp
  · intro a b g h
    rw [get_line_numbers, h]
    rfl
  · intro a b g h
    rw [get_line_numbers]
    cases hd : g.get_import_details a b with
    | nil => exact absurd hd h
    | cons x xs => simp
  · intro d
    exact List.sorted_insertionSort _ _
  · intro d
    exact ((List.perm_insertionSort _ _).nodup_iff).2 (List.nodup_dedup d)

/-- C10 (witness): the unknown-tuple rule applied at a pair with no detail
records in the concrete graph gDup. -/
theorem get_line_numbers_spec_witness :
    get_line_numbers "x" "y" gDup = [none] :=
  get_line_numbers_spec.2.1 "x" "y" gDup rfl

/-! ### Claim C5 -/

/-- The two-edge line graph a - m - b whose edges carry no recorded import
details. -/
def gLine : ImportGraph :=
  ⟨[⟨"a", "m", []⟩, ⟨"m", "b", []⟩]⟩

/-- The route describing the same underlying path set as gLine: single head
a, middle m, single tail b. -/
def rLine : Route :=
  ⟨["a"], ["m"], ["b"]⟩

/-- C5 (counterexample): on the same underlying path set the two strategies
disagree on the line_numbers fields: for an edge with no recorded details the
find_segments plus segments_to_collapsed_chains pipeline yields an empty
tuple, while build_detailed_chain_from_route yields the one-element unknown
tuple, so the resulting DetailedChain values are not structurally equal. -/
theorem route_vs_pipeline_counterexample :
    build_detailed_chain_from_route rLine gLine =
      Except.ok ⟨[⟨"a", "m", [none]⟩, ⟨"m", "b", [none]⟩], [], []⟩ ∧
    (find_segments gLine gLine (Module.mk "a") (Module.mk "b")).bind
        (fun segs => segments_to_collapsed_chains gLine segs (Module.mk "a") (Module.mk "b")) =
      Except.ok [⟨[⟨"a", "m", []⟩, ⟨"m", "b", []⟩], [], []⟩] ∧
    (⟨[⟨"a", "m", [none]⟩, ⟨"m", "b", [none]⟩], [], []⟩ : DetailedChain) ≠
      ⟨[⟨"a", "m", []⟩, ⟨"m", "b", []⟩], [], []⟩ :=
  ⟨rfl, rfl, by decide⟩

/-- The importer/imported module-name pair of a link, forgetting the
line-number annotation. -/
def Link.pair (l : Link) : String × String :=
  (l.importer, l.imported)

/-- The module-pair structure of a DetailedChain: its chain, extra_firsts and
extra_lasts with the line-number annotations forgotten. -/
def DetailedChain.pairs (d : DetailedChain) :
    List (String × String) × List (String × String) × List (String × String) :=
  (d.chain.map Link.pair, d.extra_firsts.map Link.pair, d.extra_lasts.map Link.pair)

theorem routeHeadLinks_eq {g : ImportGraph} {middle : List String} {m0 : String}
    (hm0 : middle.head? = some m0) :
    ∀ hs : List String, routeHeadLinks g middle hs =
      Except.ok (hs.map fun head => ⟨head, m0, get_line_numbers head m0 g⟩) := by
  intro hs
  induction hs with
  | nil => rfl
  | cons h hs ih =>
    rw [routeHeadLinks, hm0, ih]
    rfl

theorem routeTailLinks_eq {g : ImportGraph} {middle : List String} {mL : String}
    (hmL : middle.getLast? = some mL) :
    ∀ ts : List String, routeTailLinks g middle ts =
      Except.ok (ts.map fun tail => ⟨mL, tail, get_line_numbers mL tail g⟩) := by
  intro ts
  induction ts with
  | nil => rfl
  | cons t ts ih =>
    rw [routeTailLinks, hmL, ih]
    rfl

theorem pairsOf_cons_head {x h : String} {l : List String} (hl : l.head? = some h) :
    pairsOf (x :: l) = (x, h) :: pairsOf l := by
  cases l with
  | nil => cases hl
  | cons y ys =>
    have hy : y = h := by simpa using hl
    subst hy
    rfl

theorem pairsOf_append_last {l : List String} {z : String} (hl : l.getLast? = some z)
    (y : String) : pairsOf (l ++ [y]) = pairsOf l ++ [(z, y)] := by
  induction l generalizing z with
  | nil => cases hl
  | cons x xs ih =>
    cases xs with
    | nil =>
      have hx : x = z := by simpa using hl
      subst hx
      rfl
    | cons w ws =>
      rw [List.getLast?_cons_cons] at hl
      have hwy : pairsOf ((w :: ws) ++ [y]) = pairsOf (w :: ws) ++ [(z, y)] := ih hl
      rw [List.cons_append] at hwy
      show pairsOf (x :: w :: (ws ++ [y])) = pairsOf (x :: w :: ws) ++ [(z, y)]
      rw [pairsOf_cons_cons, pairsOf_cons_cons, List.cons_append, hwy]

theorem except_bind_ok {α β : Type} (a : α) (f : α → Except String β) :
    (Except.ok a >>= f) = f a := rfl

theorem build_route_eq {route : Route} {g : ImportGraph} {m0 mL hmin tmin : String}
    {hextra textra : List String}
    (hm0 : route.middle.head? = some m0) (hmL : route.middle.getLast? = some mL)
    (hheads : sortStr route.heads = hmin :: hextra)
    (htails : sortStr route.tails = tmin :: textra) :
    build_detailed_chain_from_route route g = Except.ok
      ⟨(pairsOf (hmin :: route.middle ++ [tmin])).map (fun pr =>
          ⟨pr.1, pr.2, get_line_numbers pr.1 pr.2 g⟩),
        hextra.map fun h => ⟨h, m0, get_line_numbers h m0 g⟩,
        textra.map fun t => ⟨mL, t, get_line_numbers mL t g⟩⟩ := by
  simp only [build_detailed_chain_from_route, hheads, htails, List.drop_succ_cons,
    List.drop_zero, routeHeadLinks_eq hm0, routeTailLinks_eq hmL, except_bind_ok,
    List.head?_cons, pairsOf]

theorem map_pair_of_map_mk (f : String × String → List (Option Nat)) (l : List (String × String)) :
    ((l.map fun pr => (⟨pr.1, pr.2, f pr⟩ : Link)).map Link.pair) = l := by
  induction l with
  | nil => rfl
  | cons x xs ih =>
    simp only [List.map_cons, ih]
    rfl

/-- C5 (amended): given the same underlying path set - a route with heads,
middle and tails, and a pipeline segment whose interior links traverse the
route middle while the boundary expansions see exactly the route heads
and tails - build_detailed_chain_from_route and the segment-collapsing
pipeline produce DetailedChains with identical module-pair structure: chain,
extra_firsts and extra_lasts agree on every importer and imported field.
Only the line_numbers annotations may differ between the two strategies. -/
theorem route_vs_pipeline_pairs_agree (g : ImportGraph) (route : Route)
    (importer imported : Module) (s : List Link) (fst lst : Link)
    (m0 mL hmin tmin : String) (hextra textra : List String)
    (hm0 : route.middle.head? = some m0) (hmL : route.middle.getLast? = some mL)
    (hheads : sortStr route.heads = hmin :: hextra)
    (htails : sortStr route.tails = tmin :: textra)
    (hfst : s.head? = some fst) (hlst : s.getLast? = some lst)
    (hfsti : fst.imported = m0) (hlsti : lst.importer = mL)
    (hmid : ((s.drop 1).dropLast).map Link.pair = pairsOf route.middle)
    (hhe : (headImportsOf g importer fst.imported).map Link.pair =
      (sortStr route.heads).map fun h => (h, m0))
    (hte : (tailImportsOf g imported lst.importer).map Link.pair =
      (sortStr route.tails).map fun t => (mL, t)) :
    ∃ dcP dcR,
      segments_to_collapsed_chains g [s] importer imported = Except.ok [dcP] ∧
      build_detailed_chain_from_route route g = Except.ok dcR ∧
      dcP.pairs = dcR.pairs := by
  rw [hheads] at hhe
  rw [htails] at hte
  cases hH : headImportsOf g importer fst.imported with
  | nil =>
    rw [hH] at hhe
    cases hhe
  | cons h0 hrest =>
    cases hT : tailImportsOf g imported lst.importer with
    | nil =>
      rw [hT] at hte
      cases hte
    | cons t0 trest =>
      rw [hH] at hhe
      rw [hT] at hte
      simp only [List.map_cons, List.cons.injEq] at hhe hte
      obtain ⟨hh0, hhrest⟩ := hhe
      obtain ⟨ht0, htrest⟩ := hte
      refine ⟨⟨[h0] ++ (s.drop 1).dropLast ++ [t0], hrest, trest⟩,
        ⟨(pairsOf (hmin :: route.middle ++ [tmin])).map (fun pr =>
            ⟨pr.1, pr.2, get_line_numbers pr.1 pr.2 g⟩),
          hextra.map fun h => ⟨h, m0, get_line_numbers h m0 g⟩,
          textra.map fun t => ⟨mL, t, get_line_numbers mL t g⟩⟩, ?_, ?_, ?_⟩
      · have hcol := collapseSegment_eq hfst hlst hH hT
        simp only [segments_to_collapsed_chains, hcol]
      · exact build_route_eq hm0 hmL hheads htails
      · have hmidhead : (route.middle ++ [tmin]).head? = some m0 := by
          cases hm : route.middle with
          | nil => rw [hm] at hm0; cases hm0
          | cons w ws =>
            rw [hm] at hm0
            simpa using hm0
        have hchain : pairsOf (hmin :: route.middle ++ [tmin]) =
            (hmin, m0) :: (pairsOf route.middle ++ [(mL, tmin)]) := by
          rw [show hmin :: route.middle ++ [tmin] = hmin :: (route.middle ++ [tmin]) from rfl,
            pairsOf_cons_head hmidhead, pairsOf_append_last hmL]
        simp only [DetailedChain.pairs, map_pair_of_map_mk, hchain, Prod.mk.injEq]
        refine ⟨?_, ?_, ?_⟩
        · simp only [List.map_append, List.map_cons, List.map_nil, hmid, hh0, ht0,
            List.append_assoc, List.singleton_append, List.cons_append, List.nil_append]
        · rw [hhrest]
          simp only [List.map_map]
          apply List.map_congr_left
          intro h hmem
          rfl
        · rw [htrest]
          simp only [List.map_map]
          apply List.map_congr_left
          intro t hmem
          rfl

/-- The route describing the same underlying path set as gExpand: heads p.a
and p.b, middle m, tail q.c. -/
def rExpand : Route :=
  ⟨["p.a", "p.b"], ["m"], ["q.c"]⟩

/-- C5 (amended, witness): on the concrete graph gExpand and its route
rExpand the two strategies produce DetailedChains with equal module-pair
structure. -/
theorem route_vs_pipeline_pairs_agree_witness :
    ∃ dcP dcR,
      segments_to_collapsed_chains gExpand
          [[⟨"p.a", "m", [some 4]⟩, ⟨"m", "q.c", [some 7]⟩]]
          (Module.mk "p") (Module.mk "q") = Except.ok [dcP] ∧
      build_detailed_chain_from_route rExpand gExpand = Except.ok dcR ∧
      dcP.pairs = dcR.pairs :=
  route_vs_pipeline_pairs_agree gExpand rExpand (Module.mk "p") (Module.mk "q")
    [⟨"p.a", "m", [some 4]⟩, ⟨"m", "q.c", [some 7]⟩]
    ⟨"p.a", "m", [some 4]⟩ ⟨"m", "q.c", [some 7]⟩
    "m" "m" "p.a" "q.c" ["p.b"] []
    rfl rfl (by decide) (by decide) rfl rfl rfl rfl rfl (by decide) (by decide)

end ImportLinter
